/-
Verification of the version-resolution and file-rewriting pipeline of
`argocd-watchdog.py`.

The script relies on `packaging.version.Version` (PEP 440) for parsing and
comparing version strings; the model below embeds the PEP 440 grammar,
normalization, sort key and canonical rendering used by that library
(packaging >= 22, where `version.parse` raises `InvalidVersion` on
unparseable input, modelled as `Option`).  Strings are modelled as `List Char`
at the character level; file contents are lists of lines.
-/
import Mathlib

namespace Watchdog

open Batteries

/-! ### Character classes (ASCII model of the Python regexes) -/

/-- `[0-9]` (code points 48-57). -/
def isDigitC (c : Char) : Bool := 48 ≤ c.toNat && c.toNat ≤ 57

/-- `\s` : space, tab, newline, carriage return, vertical tab, form feed. -/
def isWsC (c : Char) : Bool :=
  c.toNat = 32 || c.toNat = 9 || c.toNat = 10 || c.toNat = 13 ||
  c.toNat = 11 || c.toNat = 12

/-- `\w` of the Python `re` module, restricted to ASCII:
`[a-zA-Z0-9_]`. -/
def isWordC (c : Char) : Bool :=
  (97 ≤ c.toNat && c.toNat ≤ 122) || (65 ≤ c.toNat && c.toNat ≤ 90) ||
  isDigitC c || c.toNat = 95

/-- `[^\s#]` : a character allowed in the scanned value token
(`'#'` is code point 35). -/
def isValC (c : Char) : Bool := !isWsC c && c.toNat ≠ 35

/-- `[-_\.]` : a separator in the PEP 440 grammar
(code points 45, 95, 46). -/
def isSepC (c : Char) : Bool := c.toNat = 45 || c.toNat = 95 || c.toNat = 46

/-- `[a-z0-9]` : a character of a PEP 440 local-version segment
(after lowercasing). -/
def isLocAlC (c : Char) : Bool := isDigitC c || (97 ≤ c.toNat && c.toNat ≤ 122)

def parseNatChars (ds : List Char) : Nat :=
  ds.foldl (fun a c => a * 10 + (c.toNat - 48)) 0

def digitChar (n : Nat) : Char := Char.ofNat (48 + n)

def natToCharsAux : Nat → Nat → List Char
  | 0, _ => []
  | fuel + 1, n =>
    if n < 10 then [digitChar n]
    else natToCharsAux fuel (n / 10) ++ [digitChar (n % 10)]

/-- Python `str(n)` for a natural number. -/
def natToChars (n : Nat) : List Char := natToCharsAux (n + 1) n

def spanP (p : Char → Bool) (s : List Char) : List Char × List Char :=
  (s.takeWhile p, s.dropWhile p)

/-! ### The PEP 440 parsed-version data model (`packaging.version.Version`) -/

inductive PreTag | a | b | rc
deriving DecidableEq

inductive LSeg
  /-- a numeric local-version segment -/
  | num (n : Nat)
  /-- an alphanumeric local-version segment -/
  | str (s : List Char)
deriving DecidableEq

structure PVersion where
  epoch : Nat
  release : List Nat
  pre : Option (PreTag × Nat)
  post : Option Nat
  dev : Option Nat
  loc : Option (List LSeg)
deriving DecidableEq

def tagIdx : PreTag → Nat
  | .a => 0
  | .b => 1
  | .rc => 2

/-! ### The sort key of `packaging.version._cmpkey`, encoded into `List Nat`
lexicographic comparisons -/

def stripZeros (r : List Nat) : List Nat :=
  (r.reverse.dropWhile (· == 0)).reverse

def relKey (v : PVersion) : List Nat := stripZeros v.release

/-- `_pre` of `_cmpkey`: `NegativeInfinity` (= `[0]`) when only a dev segment
is present, `Infinity` (= `[2]`) when there is no pre-release, and the
`(letter, number)` pair (= `[1, letter, number]`) otherwise. -/
def preKeyEnc (v : PVersion) : List Nat :=
  match v.pre with
  | some (t, n) => [1, tagIdx t, n]
  | none => if v.post = none ∧ v.dev ≠ none then [0] else [2]

/-- `_post` of `_cmpkey`: `NegativeInfinity` (= `[0]`) when absent. -/
def postKeyEnc (v : PVersion) : List Nat :=
  match v.post with
  | none => [0]
  | some n => [1, n]

/-- `_dev` of `_cmpkey`: `Infinity` (= `[1]`) when absent. -/
def devKeyEnc (v : PVersion) : List Nat :=
  match v.dev with
  | none => [1]
  | some n => [0, n]

/-- A local segment as compared by `_cmpkey`: integer segments
(`(i, "")`) sort above string segments (`(NegativeInfinity, s)`). -/
def lsegEnc : LSeg → List Nat
  | .num n => [1, n]
  | .str s => 0 :: s.map Char.toNat

/-- `_local` of `_cmpkey`: `NegativeInfinity` (= `[]`) when absent. -/
def locKeyEnc (v : PVersion) : List (List Nat) :=
  match v.loc with
  | none => []
  | some segs => [0] :: segs.map lsegEnc

/-- Lexicographic comparison of lists, matching Python tuple comparison
(a proper prefix is smaller). -/
def cmpList (c : α → α → Ordering) : List α → List α → Ordering
  | [], [] => .eq
  | [], _ :: _ => .lt
  | _ :: _, [] => .gt
  | a :: as, b :: bs => (c a b).then (cmpList c as bs)

/-- Comparison through a key function. -/
def cmpOn (c : β → β → Ordering) (f : α → β) (a b : α) : Ordering :=
  c (f a) (f b)

/-- The total order on parsed versions: comparison of the `_cmpkey` tuples,
component by component. -/
def vcompare : PVersion → PVersion → Ordering :=
  compareLex (cmpOn compare PVersion.epoch)
    (compareLex (cmpOn (cmpList compare) relKey)
      (compareLex (cmpOn (cmpList compare) preKeyEnc)
        (compareLex (cmpOn (cmpList compare) postKeyEnc)
          (compareLex (cmpOn (cmpList compare) devKeyEnc)
            (cmpOn (cmpList (cmpList compare)) locKeyEnc)))))

/-! ### The PEP 440 parser (`packaging.version.VERSION_PATTERN`, applied
anchored and case-insensitively with surrounding whitespace allowed).
The regex is deterministic enough that a greedy functional parser matches its
backtracking semantics; alternations are tried longest-first where one
alternative is a prefix of another. -/

def parseEpoch (s : List Char) : Nat × List Char :=
  match spanP isDigitC s with
  | ([], _) => (0, s)
  | (ds, r) =>
    match r with
    | '!' :: r2 => (parseNatChars ds, r2)
    | _ => (0, s)

/-- The loop of `[0-9]+(?:\.[0-9]+)*`: `acc` are the finished segments, `cur`
the numeric value of the segment being read.  A `'.'` is consumed only when a
digit follows. -/
def relLoop (acc : List Nat) (cur : Nat) : List Char → List Nat × List Char
  | [] => (acc ++ [cur], [])
  | [c] =>
    if isDigitC c then (acc ++ [cur * 10 + (c.toNat - 48)], [])
    else (acc ++ [cur], [c])
  | c :: d :: r =>
    if isDigitC c then relLoop acc (cur * 10 + (c.toNat - 48)) (d :: r)
    else if c = '.' && isDigitC d then relLoop (acc ++ [cur]) (d.toNat - 48) r
    else (acc ++ [cur], c :: d :: r)

def parseRelease (s : List Char) : Option (List Nat × List Char) :=
  match s with
  | c :: r => if isDigitC c then some (relLoop [] (c.toNat - 48) r) else none
  | [] => none

def dropOneSep : List Char → List Char
  | c :: r => if isSepC c then r else c :: r
  | [] => []

def matchWord (w s : List Char) : Option (List Char) :=
  if w.isPrefixOf s then some (s.drop w.length) else none

def matchFirstTag {α : Type} : List (α × List Char) → List Char → Option (α × List Char)
  | [], _ => none
  | (t, w) :: rest, s =>
    match matchWord w s with
    | some r => some (t, r)
    | none => matchFirstTag rest s

def preWords : List (PreTag × List Char) :=
  [(.a, "alpha".data), (.b, "beta".data), (.rc, "preview".data), (.rc, "pre".data),
   (.rc, "rc".data), (.a, "a".data), (.b, "b".data), (.rc, "c".data)]

def tryPre (s : List Char) : Option (PreTag × Nat) × List Char :=
  match matchFirstTag preWords (dropOneSep s) with
  | none => (none, s)
  | some (t, s2) =>
    match spanP isDigitC (dropOneSep s2) with
    | ([], _) => (some (t, 0), dropOneSep s2)
    | (ds, s4) => (some (t, parseNatChars ds), s4)

def postWords : List (Unit × List Char) :=
  [((), "post".data), ((), "rev".data), ((), "r".data)]

def tryPostWord (s : List Char) : Option Nat × List Char :=
  match matchFirstTag postWords (dropOneSep s) with
  | none => (none, s)
  | some (_, s2) =>
    match spanP isDigitC (dropOneSep s2) with
    | ([], _) => (some 0, dropOneSep s2)
    | (ds, s4) => (some (parseNatChars ds), s4)

def tryPost (s : List Char) : Option Nat × List Char :=
  match s with
  | '-' :: r =>
    match spanP isDigitC r with
    | ([], _) => tryPostWord s
    | (ds, r2) => (some (parseNatChars ds), r2)
  | _ => tryPostWord s

def tryDev (s : List Char) : Option Nat × List Char :=
  match matchWord "dev".data (dropOneSep s) with
  | none => (none, s)
  | some s2 =>
    match spanP isDigitC (dropOneSep s2) with
    | ([], _) => (some 0, dropOneSep s2)
    | (ds, s4) => (some (parseNatChars ds), s4)

def mkSeg (s : List Char) : LSeg :=
  if s.all isDigitC then .num (parseNatChars s) else .str s

/-- The loop of `[a-z0-9]+(?:[-_\.][a-z0-9]+)*`: `acc` are the finished
segments, `cur` the characters of the segment being read.  A separator is
consumed only when a segment character follows. -/
def locLoop (acc : List LSeg) (cur : List Char) : List Char → List LSeg × List Char
  | [] => (acc ++ [mkSeg cur], [])
  | [c] =>
    if isLocAlC c then (acc ++ [mkSeg (cur ++ [c])], [])
    else (acc ++ [mkSeg cur], [c])
  | c :: d :: r =>
    if isLocAlC c then locLoop acc (cur ++ [c]) (d :: r)
    else if isSepC c && isLocAlC d then locLoop (acc ++ [mkSeg cur]) [d] r
    else (acc ++ [mkSeg cur], c :: d :: r)

def tryLocal (s : List Char) : Option (Option (List LSeg) × List Char) :=
  match s with
  | '+' :: c :: r =>
    if isLocAlC c then
      match locLoop [] [c] r with
      | (segs, r2) => some (some segs, r2)
    else none
  | ['+'] => none
  | _ => some (none, s)

def trimWs (s : List Char) : List Char :=
  ((s.dropWhile isWsC).reverse.dropWhile isWsC).reverse

def dropV : List Char → List Char
  | 'v' :: r => r
  | s => s

def pversionParseChars (s0 : List Char) : Option PVersion :=
  let s := dropV ((trimWs s0).map Char.toLower)
  let (ep, s1) := parseEpoch s
  match parseRelease s1 with
  | none => none
  | some (rel, s2) =>
    let (pr, s3) := tryPre s2
    let (po, s4) := tryPost s3
    let (dv, s5) := tryDev s4
    match tryLocal s5 with
    | none => none
    | some (lc, s6) => if s6 = [] then some ⟨ep, rel, pr, po, dv, lc⟩ else none

/-- `packaging.version.parse` of `packaging >= 22`: `none` models a raised
`InvalidVersion`. -/
def pversionParse (s : String) : Option PVersion := pversionParseChars s.data

/-! ### Canonical rendering (`str(Version)`) -/

def renderRelease : List Nat → List Char
  | [] => []
  | [x] => natToChars x
  | x :: xs => natToChars x ++ '.' :: renderRelease xs

def preTagChars : PreTag → List Char
  | .a => ['a']
  | .b => ['b']
  | .rc => ['r', 'c']

def lsegChars : LSeg → List Char
  | .num n => natToChars n
  | .str s => s

def renderLocalSegs : List LSeg → List Char
  | [] => []
  | [sg] => lsegChars sg
  | sg :: rest => lsegChars sg ++ '.' :: renderLocalSegs rest

def epochPart (v : PVersion) : List Char :=
  if v.epoch = 0 then [] else natToChars v.epoch ++ ['!']

def prePart (v : PVersion) : List Char :=
  match v.pre with
  | none => []
  | some (t, n) => preTagChars t ++ natToChars n

def postPart (v : PVersion) : List Char :=
  match v.post with
  | none => []
  | some n => '.' :: 'p' :: 'o' :: 's' :: 't' :: natToChars n

def devPart (v : PVersion) : List Char :=
  match v.dev with
  | none => []
  | some n => '.' :: 'd' :: 'e' :: 'v' :: natToChars n

def localPart (v : PVersion) : List Char :=
  match v.loc with
  | none => []
  | some segs => '+' :: renderLocalSegs segs

def renderVersionChars (v : PVersion) : List Char :=
  epochPart v ++ renderRelease v.release ++ prePart v ++ postPart v ++
    devPart v ++ localPart v

def renderVersion (v : PVersion) : String := String.mk (renderVersionChars v)

/-- The tail of `renderRelease` after its first segment. -/
def renderRelTail : List Nat → List Char
  | [] => []
  | x :: xs => '.' :: natToChars x ++ renderRelTail xs

/-- The tail of `renderLocalSegs` after its first segment. -/
def renderLocalTail : List LSeg → List Char
  | [] => []
  | sg :: rest => '.' :: lsegChars sg ++ renderLocalTail rest

/-- Well-formedness of a local segment as produced by the parser: a string
segment is a nonempty run of segment characters that is not all digits. -/
def lsegWF : LSeg → Prop
  | .num _ => True
  | .str s => s ≠ [] ∧ (∀ c ∈ s, isLocAlC c = true) ∧ ∃ c ∈ s, isDigitC c = false

/-- Well-formedness of a parsed version as produced by the parser. -/
def pvWF (v : PVersion) : Prop :=
  v.release ≠ [] ∧ ∀ segs, v.loc = some segs → segs ≠ [] ∧ ∀ sg ∈ segs, lsegWF sg

/-! ### `get_latest_version` -/

/-- The list comprehension `[version.parse(v) for v in versions]`: the first
raised `InvalidVersion` aborts the whole comprehension. -/
def parseAll : List String → Option (List PVersion)
  | [] => some []
  | v :: rest =>
    match pversionParse v, parseAll rest with
    | some p, some ps => some (p :: ps)
    | _, _ => none

/-- Python `max`: keeps the earliest maximal element. -/
def pyMax : List PVersion → Option PVersion
  | [] => none
  | v :: t => some (t.foldl (fun acc x => if vcompare x acc = .gt then x else acc) v)

def getLatestVersion (versions : List String) : Option String :=
  match versions with
  | [] => none
  | v0 :: rest =>
    match parseAll (v0 :: rest) with
    | some parsed => (pyMax parsed).map renderVersion
    | none => some v0

/-! ### `fetch_oci_versions` (tag filtering, URL parsing, pagination loop) -/

/-- `^\d+\.\d+\.\d+$` tail of the OCI tag regex. -/
def tripleExact (l : List Char) : Bool :=
  match spanP isDigitC l with
  | ([], _) => false
  | (_, r1) =>
    match r1 with
    | '.' :: r2 =>
      match spanP isDigitC r2 with
      | ([], _) => false
      | (_, r3) =>
        match r3 with
        | '.' :: r4 =>
          match spanP isDigitC r4 with
          | ([], _) => false
          | (_, r5) => r5.isEmpty
        | _ => false
    | _ => false

/-- `re.match(r"^v?\d+\.\d+\.\d+$", tag)`. -/
def matchesOciTag (t : String) : Bool :=
  match t.data with
  | 'v' :: r => tripleExact r || tripleExact ('v' :: r)
  | l => tripleExact l

/-- Python `tag.lstrip("v")`. -/
def stripV (t : String) : String := String.mk (t.data.dropWhile (· == 'v'))

/-- The tag-filtering loop of `fetch_oci_versions`. -/
def ociFilterTags (tags : List String) : List String :=
  tags.filterMap fun t => if matchesOciTag t then some (stripV t) else none

/-- One response of the registry tags endpoint: the tag list of the page and
whether a `Link; rel="next"` header is present.  `Except.error` models a
raised request/HTTP/JSON error. -/
structure OciPage where
  tags : List String
  hasNext : Bool

def ociLoop : List (Except Unit OciPage) → Except Unit (List String)
  | [] => .ok []
  | .error e :: _ => .error e
  | .ok pg :: rest =>
    if pg.hasNext then
      match ociLoop rest with
      | .error e => .error e
      | .ok more => .ok (pg.tags ++ more)
    else .ok pg.tags

/-- `oci_url[6:]` plus `split("/", 1)`: `none` when fewer than two parts. -/
def splitFirstSlash : List Char → Option (List Char × List Char)
  | [] => none
  | '/' :: r => some ([], r)
  | c :: r => (splitFirstSlash r).map fun p => (c :: p.1, p.2)

def parseOciUrl (url : String) : Option (String × String) :=
  let u := if "oci://".data.isPrefixOf url.data then url.data.drop 6 else url.data
  (splitFirstSlash u).map fun p => (String.mk p.1, String.mk p.2)

/-- `fetch_oci_versions` over the modelled network responses: an invalid URL
or any raised error during the paginated tag fetch degrades to `[]`. -/
def fetchOciVersions (url : String) (pages : List (Except Unit OciPage)) : List String :=
  match parseOciUrl url with
  | none => []
  | some _ =>
    match ociLoop pages with
    | .error _ => []
    | .ok tags => ociFilterTags tags

/-! ### `fetch_rss_versions` -/

structure RssItem where
  title : Option String

/-- `re.search(r"(\d+\.\d+\.\d+)", text)` attempted at one position. -/
def matchTripleAt (s : List Char) : Option (List Char) :=
  match spanP isDigitC s with
  | ([], _) => none
  | (d1, r1) =>
    match r1 with
    | '.' :: r2 =>
      match spanP isDigitC r2 with
      | ([], _) => none
      | (d2, r3) =>
        match r3 with
        | '.' :: r4 =>
          match spanP isDigitC r4 with
          | ([], _) => none
          | (d3, _) => some (d1 ++ '.' :: d2 ++ '.' :: d3)
        | _ => none
    | _ => none

/-- `re.search`: the leftmost position where the triple pattern matches. -/
def searchTriple : List Char → Option (List Char)
  | [] => none
  | c :: r =>
    match matchTripleAt (c :: r) with
    | some m => some m
    | none => searchTriple r

/-- `fetch_rss_versions` over the modelled feed response: a raised
request/parse error degrades to `[]`; items without a title or whose title
holds no embedded numeric triple are skipped. -/
def fetchRssVersions (resp : Except String (List RssItem)) : List String :=
  match resp with
  | .error _ => []
  | .ok items =>
    items.filterMap fun it =>
      match it.title with
      | none => none
      | some ttl => (searchTriple ttl.data).map String.mk

/-! ### `find_watchdog_lines` -/

def markerPhrase : List Char := "# watchdog this".data

/-- `re.match(r"\s*(\w+):\s*([^\s#]+)", line)`, returning the two groups. -/
def scanLine (l : List Char) : Option (List Char × List Char) :=
  let r0 := l.dropWhile isWsC
  let fld := r0.takeWhile isWordC
  if fld = [] then none
  else
    match r0.dropWhile isWordC with
    | ':' :: r2 =>
      let v := (r2.dropWhile isWsC).takeWhile isValC
      if v = [] then none else some (fld, v)
    | _ => none

/-- The contribution of a single line: a marker iff the line contains the
marker phrase and matches the field pattern. -/
def lineMarker (l : List Char) : Option (List Char × List Char) :=
  if markerPhrase <:+: l then scanLine l else none

def findWatchdogAux : Nat → List (List Char) → List (Nat × List Char × List Char)
  | _, [] => []
  | i, l :: ls =>
    match lineMarker l with
    | some fv => (i, fv.1, fv.2) :: findWatchdogAux (i + 1) ls
    | none => findWatchdogAux (i + 1) ls

def findWatchdogLines (lines : List (List Char)) : List (Nat × List Char × List Char) :=
  findWatchdogAux 1 lines

/-! ### `update_version_in_file` -/

/-- Python `str.replace` for nonempty needles: left-to-right, non-overlapping,
every occurrence.  While `skip > 0` the scanner is inside a just-replaced
occurrence and consumes characters without matching. -/
def pyRepLoop (oldV newV : List Char) : Nat → List Char → List Char
  | _, [] => []
  | 0, c :: t =>
    if oldV.isPrefixOf (c :: t) then newV ++ pyRepLoop oldV newV (oldV.length - 1) t
    else c :: pyRepLoop oldV newV 0 t
  | skip + 1, _ :: t => pyRepLoop oldV newV skip t

def pyReplaceGo (oldV newV s : List Char) : List Char :=
  pyRepLoop oldV newV 0 s

/-- Python `str.replace` (the empty-needle case interleaves the replacement). -/
def pyReplace (s oldV newV : List Char) : List Char :=
  if oldV = [] then newV ++ s.foldr (fun c acc => c :: (newV ++ acc)) []
  else pyReplaceGo oldV newV s

/-- Python list indexing: negative indices count from the end; out-of-bounds
is an `IndexError` (`none`). -/
def pyIdx (len : Nat) (i : Int) : Option Nat :=
  if 0 ≤ i then (if i < (len : Int) then some i.toNat else none)
  else (if -i ≤ (len : Int) then some (len - (-i).toNat) else none)

/-- `update_version_in_file`: returns the success flag and the resulting file
content (which equals the input whenever no write is performed).  The
`try/except` of the source catches the `IndexError` of a too-negative index
(`pyIdx = none`). -/
def updateVersionInFile (dryRun : Bool) (lines : List (List Char)) (lineNum : Int)
    (oldV newV : List Char) : Bool × List (List Char) :=
  if lineNum > (lines.length : Int) then (false, lines)
  else
    match pyIdx lines.length (lineNum - 1) with
    | none => (false, lines)
    | some idx =>
      match lines[idx]? with
      | none => (false, lines)
      | some orig =>
        let upd := pyReplace orig oldV newV
        if orig = upd then (false, lines)
        else if dryRun then (true, lines)
        else (true, lines.set idx upd)

/-! ### The per-marker decision of the `check` command -/

inductive CStatus | upToDate | updateAvailable | unknownV | cannotCheck
deriving DecidableEq

/-- The status computation of the `check` command for one marker (the Python
truthiness test `if latest_version:` treats `""` like `None`; a raised
`InvalidVersion` in either parse yields the `Unknown` status). -/
def checkDecision (latestVersion : Option String) (currentVer : String) : CStatus :=
  match latestVersion with
  | none => .cannotCheck
  | some l =>
    if l = "" then .cannotCheck
    else
      match pversionParse l, pversionParse currentVer with
      | some pl, some pc => if vcompare pl pc = .gt then .updateAvailable else .upToDate
      | _, _ => .unknownV

/-! ### The per-file loop of the `update` command -/

inductive UStatus | updated | wouldUpdate | failedU | alreadyLatest | errorU | cannotCheckU
deriving DecidableEq

/-- The marker loop of the `update` command: statuses in marker order, and
the file content after the sequence of rewrites (each rewrite re-reads the
file, so later markers see earlier writes). -/
def processMarkers (apply : Bool) (latestVersion : Option String) :
    List (Nat × List Char × List Char) → List (List Char) →
    List UStatus × List (List Char)
  | [], file => ([], file)
  | (n, _f, cur) :: rest, file =>
    match latestVersion with
    | none =>
      let p := processMarkers apply latestVersion rest file
      (.cannotCheckU :: p.1, p.2)
    | some l =>
      if l = "" then
        let p := processMarkers apply latestVersion rest file
        (.cannotCheckU :: p.1, p.2)
      else
        match pversionParse l, pversionParse (String.mk cur) with
        | some pl, some pc =>
          if vcompare pl pc = .gt then
            let r := updateVersionInFile (!apply) file (n : Int) cur l.data
            let st := if r.1 then (if apply then UStatus.updated else UStatus.wouldUpdate)
                      else UStatus.failedU
            let p := processMarkers apply latestVersion rest r.2
            (st :: p.1, p.2)
          else
            let p := processMarkers apply latestVersion rest file
            (.alreadyLatest :: p.1, p.2)
        | _, _ =>
          let p := processMarkers apply latestVersion rest file
          (.errorU :: p.1, p.2)

/-- One dependency of the `update` command, against a fixed candidate list. -/
def processFile (apply : Bool) (cands : List String) (file : List (List Char)) :
    List UStatus × List (List Char) :=
  processMarkers apply (getLatestVersion cands) (findWatchdogLines file) file

/-! ### Comparator laws -/

theorem cmpList_swap (c : α → α → Ordering) (hs : ∀ a b, (c a b).swap = c b a) :
    ∀ x y, (cmpList c x y).swap = cmpList c y x := by
  intro x
  induction x with
  | nil => intro y; cases y <;> rfl
  | cons a as ih =>
    intro y
    cases y with
    | nil => rfl
    | cons b bs => simp only [cmpList, Ordering.swap_then, hs, ih]

instance cmpListOriented (c : α → α → Ordering) [inst : OrientedCmp c] :
    OrientedCmp (cmpList c) where
  symm x y := cmpList_swap c inst.symm x y

theorem cmpEqGt (c : α → α → Ordering) [OrientedCmp c] (x y : α) :
    c x y = .gt ↔ c y x = .lt := OrientedCmp.cmp_eq_gt

theorem cmpList_le_trans (c : α → α → Ordering) [inst : TransCmp c] :
    ∀ x y z, cmpList c x y ≠ .gt → cmpList c y z ≠ .gt → cmpList c x z ≠ .gt := by
  intro x
  induction x with
  | nil =>
    intro y z _ _
    cases z <;> simp [cmpList]
  | cons a as ih =>
    intro y z hxy hyz
    cases y with
    | nil => cases hxy (by simp [cmpList])
    | cons b bs =>
      cases z with
      | nil => cases hyz (by simp [cmpList])
      | cons d ds =>
        simp only [cmpList, ne_eq, Ordering.then_eq_gt, not_or, not_and] at hxy hyz ⊢
        refine ⟨inst.le_trans hxy.1 hyz.1, fun e1 e2 => ?_⟩
        match hab : c a b with
        | .gt => exact hxy.1 hab
        | .eq =>
          exact ih bs ds (hxy.2 hab) (hyz.2 (inst.cmp_congr_left hab ▸ e1)) e2
        | .lt =>
          exact hyz.1 <| (cmpEqGt c b d).2 (inst.cmp_congr_left e1 ▸ hab)

instance cmpListTrans (c : α → α → Ordering) [TransCmp c] :
    TransCmp (cmpList c) where
  le_trans h1 h2 := cmpList_le_trans c _ _ _ h1 h2

instance cmpOnOriented (c : β → β → Ordering) (f : α → β) [inst : OrientedCmp c] :
    OrientedCmp (cmpOn c f) where
  symm x y := inst.symm (f x) (f y)

instance cmpOnTrans (c : β → β → Ordering) (f : α → β) [inst : TransCmp c] :
    TransCmp (cmpOn c f) where
  le_trans h1 h2 := inst.le_trans h1 h2

instance vcompareTrans : TransCmp vcompare := by
  unfold vcompare; infer_instance

theorem vcompare_refl (v : PVersion) : vcompare v v = .eq :=
  OrientedCmp.cmp_refl

/-! ### Decimal rendering of naturals -/

theorem natToCharsAux_congr (n : Nat) : ∀ f1 f2, n < f1 → n < f2 →
    natToCharsAux f1 n = natToCharsAux f2 n := by
  induction n using Nat.strong_induction_on with
  | _ n ih =>
    intro f1 f2 h1 h2
    cases f1 with
    | zero => omega
    | succ f1 =>
      cases f2 with
      | zero => omega
      | succ f2 =>
        simp only [natToCharsAux]
        split
        · rfl
        · rename_i hn
          rw [ih (n / 10) (by omega) f1 f2 (by omega) (by omega)]

theorem natToChars_unfold (n : Nat) : natToChars n =
    if n < 10 then [digitChar n] else natToChars (n / 10) ++ [digitChar (n % 10)] := by
  show natToCharsAux (n + 1) n = _
  simp only [natToCharsAux]
  split
  · rfl
  · rename_i hn
    rw [natToCharsAux_congr (n / 10) n (n / 10 + 1) (by omega) (by omega)]
    rfl

theorem digitChar_toNat (n : Nat) (h : n < 10) : (digitChar n).toNat = 48 + n := by
  interval_cases n <;> decide

theorem digitChar_digit (n : Nat) (h : n < 10) : isDigitC (digitChar n) = true := by
  interval_cases n <;> decide

theorem natToChars_ne_nil (n : Nat) : natToChars n ≠ [] := by
  rw [natToChars_unfold]
  split <;> simp

theorem natToChars_digits (n : Nat) : ∀ c ∈ natToChars n, isDigitC c = true := by
  induction n using Nat.strong_induction_on with
  | _ n ih =>
    rw [natToChars_unfold]
    split
    · rename_i h
      intro c hc
      simp at hc
      subst hc
      exact digitChar_digit n h
    · rename_i h
      intro c hc
      rw [List.mem_append] at hc
      rcases hc with hc | hc
      · exact ih (n / 10) (by omega) c hc
      · simp at hc
        subst hc
        exact digitChar_digit (n % 10) (by omega)

theorem parseNatChars_append (ds : List Char) (c : Char) :
    parseNatChars (ds ++ [c]) = parseNatChars ds * 10 + (c.toNat - 48) := by
  simp [parseNatChars, List.foldl_append]

theorem parseNat_natToChars (n : Nat) : parseNatChars (natToChars n) = n := by
  induction n using Nat.strong_induction_on with
  | _ n ih =>
    rw [natToChars_unfold]
    split
    · rename_i h
      simp [parseNatChars, digitChar_toNat n h]
    · rename_i h
      rw [parseNatChars_append, ih (n / 10) (by omega), digitChar_toNat (n % 10) (by omega)]
      omega

/-! ### Python `max` over parsed versions -/

theorem foldlMax_spec (t : List PVersion) : ∀ acc : PVersion,
    vcompare acc (t.foldl (fun a x => if vcompare x a = .gt then x else a) acc) ≠ .gt ∧
    ∀ p ∈ t, vcompare p (t.foldl (fun a x => if vcompare x a = .gt then x else a) acc) ≠ .gt := by
  induction t with
  | nil =>
    intro acc
    constructor
    · simp only [List.foldl_nil]
      rw [vcompare_refl]
      simp
    · simp
  | cons x t ih =>
    intro acc
    simp only [List.foldl_cons]
    by_cases hx : vcompare x acc = .gt
    · rw [if_pos hx]
      refine ⟨?_, ?_⟩
      · have hax : vcompare acc x ≠ .gt := TransCmp.gt_asymm hx
        exact TransCmp.le_trans hax (ih x).1
      · intro p hp
        rw [List.mem_cons] at hp
        rcases hp with rfl | hp
        · exact (ih p).1
        · exact (ih x).2 p hp
    · rw [if_neg hx]
      refine ⟨(ih acc).1, ?_⟩
      intro p hp
      rw [List.mem_cons] at hp
      rcases hp with rfl | hp
      · exact TransCmp.le_trans hx (ih acc).1
      · exact (ih acc).2 p hp

theorem foldlMax_mem (t : List PVersion) : ∀ acc : PVersion,
    t.foldl (fun a x => if vcompare x a = .gt then x else a) acc = acc ∨
    t.foldl (fun a x => if vcompare x a = .gt then x else a) acc ∈ t := by
  induction t with
  | nil => intro acc; simp
  | cons x t ih =>
    intro acc
    simp only [List.foldl_cons]
    by_cases hx : vcompare x acc = .gt
    · rw [if_pos hx]
      rcases ih x with h | h
      · right; rw [h]; exact List.mem_cons_self x t
      · right; exact List.mem_cons_of_mem x h
    · rw [if_neg hx]
      rcases ih acc with h | h
      · left; exact h
      · right; exact List.mem_cons_of_mem x h

theorem pyMax_mem {l : List PVersion} {m : PVersion} (h : pyMax l = some m) : m ∈ l := by
  cases l with
  | nil => simp [pyMax] at h
  | cons v t =>
    simp only [pyMax, Option.some_inj] at h
    rcases foldlMax_mem t v with h2 | h2
    · rw [← h, h2]; exact List.mem_cons_self v t
    · rw [← h]; exact List.mem_cons_of_mem v h2

theorem pyMax_not_gt {l : List PVersion} {m : PVersion} (h : pyMax l = some m) :
    ∀ p ∈ l, vcompare p m ≠ .gt := by
  cases l with
  | nil => simp [pyMax] at h
  | cons v t =>
    simp only [pyMax, Option.some_inj] at h
    intro p hp
    rw [List.mem_cons] at hp
    rcases hp with rfl | hp
    · rw [← h]; exact (foldlMax_spec t p).1
    · rw [← h]; exact (foldlMax_spec t v).2 p hp

/-! ### `parseAll` -/

theorem parseAll_sound : ∀ (vs : List String) (ps : List PVersion),
    parseAll vs = some ps → ∀ p ∈ ps, ∃ s ∈ vs, pversionParse s = some p := by
  intro vs
  induction vs with
  | nil =>
    intro ps h p hp
    simp [parseAll] at h
    subst h
    simp at hp
  | cons v rest ih =>
    intro ps h p hp
    simp only [parseAll] at h
    match hv : pversionParse v, hr : parseAll rest with
    | some q, some qs =>
      rw [hv, hr] at h
      simp at h
      subst h
      rw [List.mem_cons] at hp
      rcases hp with rfl | hp
      · exact ⟨v, List.mem_cons_self v rest, hv⟩
      · rcases ih qs hr p hp with ⟨s, hs, hps⟩
        exact ⟨s, List.mem_cons_of_mem v hs, hps⟩
    | some q, none => rw [hv, hr] at h; simp at h
    | none, _ => rw [hv] at h; simp at h

theorem parseAll_cons_ne_nil {v : String} {r : List String} {ps : List PVersion}
    (h : parseAll (v :: r) = some ps) : ps ≠ [] := by
  simp only [parseAll] at h
  match hv : pversionParse v, hr : parseAll r with
  | some q, some qs => rw [hv, hr] at h; simp at h; rw [← h]; simp
  | some q, none => rw [hv, hr] at h; simp at h
  | none, _ => rw [hv] at h; simp at h

/-! ### `str.replace` structure -/

theorem pyRepLoop_skip (oldV newV : List Char) :
    ∀ (l rest : List Char), pyRepLoop oldV newV l.length (l ++ rest) =
      pyRepLoop oldV newV 0 rest := by
  intro l
  induction l with
  | nil => intro rest; rfl
  | cons c t ih =>
    intro rest
    show pyRepLoop oldV newV (t.length + 1) (c :: (t ++ rest)) = _
    rw [pyRepLoop]
    exact ih rest

theorem pyRepLoop_no_occ (oldV newV : List Char) (_ho : oldV ≠ []) :
    ∀ s : List Char, (∀ i, ¬ oldV <+: s.drop i) →
      pyRepLoop oldV newV 0 s = s := by
  intro s
  induction s with
  | nil => intro _; rfl
  | cons c t ih =>
    intro h
    rw [pyRepLoop]
    rw [if_neg]
    · rw [ih]
      intro i hi
      exact h (i + 1) (by simpa using hi)
    · intro hpre
      exact h 0 (by simpa using List.isPrefixOf_iff_prefix.mp hpre)

theorem pyRepLoop_occ (oldV newV : List Char) (ho : oldV ≠ []) :
    ∀ (p s : List Char), (∀ i < p.length, ¬ oldV <+: (p ++ oldV ++ s).drop i) →
      pyRepLoop oldV newV 0 (p ++ oldV ++ s) =
        p ++ newV ++ pyRepLoop oldV newV 0 s := by
  intro p
  induction p with
  | nil =>
    intro s _
    match oldV, ho with
    | c :: t, _ =>
      show pyRepLoop (c :: t) newV 0 (c :: (t ++ s)) = _
      rw [pyRepLoop, if_pos]
      · show newV ++ pyRepLoop (c :: t) newV t.length (t ++ s) = _
        rw [pyRepLoop_skip]
        simp
      · exact List.isPrefixOf_iff_prefix.mpr (by simp)
  | cons a p ih =>
    intro s h
    show pyRepLoop oldV newV 0 (a :: (p ++ oldV ++ s)) = _
    rw [pyRepLoop, if_neg]
    · rw [ih s]
      · simp
      · intro i hi
        have := h (i + 1) (by simp; omega)
        simpa using this
    · intro hpre
      have := h 0 (by simp)
      simp at this
      exact this (by simpa using List.isPrefixOf_iff_prefix.mp hpre)

theorem pyReplace_decomp (oldV newV : List Char) (ho : oldV ≠ []) (p s : List Char)
    (hocc : ∀ i < p.length, ¬ oldV <+: (p ++ oldV ++ s).drop i) :
    pyReplace (p ++ oldV ++ s) oldV newV = p ++ newV ++ pyReplace s oldV newV := by
  rw [pyReplace, pyReplace, if_neg ho, if_neg ho]
  exact pyRepLoop_occ oldV newV ho p s hocc

theorem pyReplace_no_occ (oldV newV : List Char) (ho : oldV ≠ []) (s : List Char)
    (h : ∀ i, ¬ oldV <+: s.drop i) : pyReplace s oldV newV = s := by
  rw [pyReplace, if_neg ho]
  exact pyRepLoop_no_occ oldV newV ho s h

/-! ### `update_version_in_file` branch structure -/

theorem pyIdx_pos {len n : Nat} (h1 : 1 ≤ n) (h2 : n ≤ len) :
    pyIdx len ((n : Int) - 1) = some (n - 1) := by
  rw [pyIdx, if_pos (by omega), if_pos (by omega)]
  congr 1
  omega

theorem updateVIF_in_range (dr : Bool) (lines : List (List Char)) (n : Nat)
    (h1 : 1 ≤ n) (h2 : n ≤ lines.length) (l : List Char) (hl : lines[n - 1]? = some l)
    (oldV newV : List Char) :
    updateVersionInFile dr lines (n : Int) oldV newV =
      if l = pyReplace l oldV newV then (false, lines)
      else if dr then (true, lines)
      else (true, lines.set (n - 1) (pyReplace l oldV newV)) := by
  rw [updateVersionInFile, if_neg (by omega), pyIdx_pos h1 h2]
  simp only [hl]

/-- C2 counterexample: on the line `a: 1.0 x 1.0 # watchdog this`,
`update_version_in_file` replaces BOTH occurrences of `1.0` (Python
`str.replace` replaces every occurrence), contradicting the claim that only
the first occurrence is replaced and no other content of the line is
altered. -/
theorem c2_counterexample :
    updateVersionInFile false ["a: 1.0 x 1.0 # watchdog this\n".data] 1
      "1.0".data "2.0".data
      = (true, ["a: 2.0 x 2.0 # watchdog this\n".data]) := by decide

/-- C2 (amended): within the target line, `update_version_in_file` replaces
every left-to-right non-overlapping occurrence of the old substring (Python
`str.replace`), not only the first; all characters of the line outside the
replaced occurrences are preserved.  For a line `p ++ oldV ++ s` whose first
occurrence of `oldV` starts right after `p`, the rewritten line is
`p ++ newV ++ pyReplace s oldV newV`, and the operation reports success
exactly when this differs from the original line. -/
theorem c2_replaces_every_occurrence (lines : List (List Char)) (n : Nat)
    (p s oldV newV : List Char)
    (hold : oldV ≠ []) (hn1 : 1 ≤ n) (hn2 : n ≤ lines.length)
    (hline : lines[n - 1]? = some (p ++ oldV ++ s))
    (hocc : ∀ i < p.length, ¬ oldV <+: (p ++ oldV ++ s).drop i) :
    (p ++ newV ++ pyReplace s oldV newV ≠ p ++ oldV ++ s →
      updateVersionInFile false lines (n : Int) oldV newV
        = (true, lines.set (n - 1) (p ++ newV ++ pyReplace s oldV newV))) ∧
    (p ++ newV ++ pyReplace s oldV newV = p ++ oldV ++ s →
      updateVersionInFile false lines (n : Int) oldV newV = (false, lines)) := by
  have hdec := pyReplace_decomp oldV newV hold p s hocc
  rw [updateVIF_in_range false lines n hn1 hn2 (p ++ oldV ++ s) hline oldV newV, hdec]
  constructor
  · intro hne
    rw [if_neg (fun h => hne h.symm)]
    rfl
  · intro heq
    rw [if_pos heq.symm]

/-- C2 witness: a concrete rewrite through `c2_replaces_every_occurrence`,
with a second occurrence of the old substring on the same line. -/
theorem c2_witness :
    updateVersionInFile false ["k: 1.0 z 1.0\n".data] 1 "1.0".data "2.0".data
      = (true, ["k: 2.0 z 2.0\n".data]) := by
  have h := (c2_replaces_every_occurrence ["k: 1.0 z 1.0\n".data] 1
    "k: ".data " z 1.0\n".data "1.0".data "2.0".data
    (by decide) (by decide) (by decide) (by decide) (by decide)).1 (by decide)
  exact h

/-- C3 counterexample: line number `0` is outside the 1-based range, yet
`update_version_in_file` wraps it Python-style to the LAST line
(`lines[-1]`), reports success and performs the write. -/
theorem c3_counterexample :
    updateVersionInFile false ["a: 1.0.0 # watchdog this\n".data] 0
      "1.0.0".data "2.0.0".data
      = (true, ["a: 2.0.0 # watchdog this\n".data]) := by decide

/-- C3 (amended): `update_version_in_file` returns `false` and leaves the
file unchanged when the line number exceeds the number of lines, when the
Python index `line_num - 1` falls below `-len` (the raised `IndexError` is
caught), and when the replacement leaves the in-range target line unchanged
(in particular when the old substring does not occur in it); no exception
escapes (the embedding is total).  Line numbers `≤ 0` within `-(len-1)..0`
are NOT rejected: they index from the end of the file. -/
theorem c3_failure_modes (dr : Bool) (lines : List (List Char)) (ln : Int)
    (oldV newV : List Char) :
    (ln > (lines.length : Int) → updateVersionInFile dr lines ln oldV newV = (false, lines)) ∧
    (ln ≤ -(lines.length : Int) → updateVersionInFile dr lines ln oldV newV = (false, lines)) ∧
    (∀ n : Nat, (n : Int) = ln → 1 ≤ n → n ≤ lines.length →
      ∀ l, lines[n - 1]? = some l → pyReplace l oldV newV = l →
        updateVersionInFile dr lines ln oldV newV = (false, lines)) := by
    refine ⟨?_, ?_, ?_⟩
    · intro h
      rw [updateVersionInFile, if_pos h]
    · intro h
      rw [updateVersionInFile]
      by_cases hgt : ln > (lines.length : Int)
      · rw [if_pos hgt]
      · rw [if_neg hgt]
        have : pyIdx lines.length (ln - 1) = none := by
          rw [pyIdx, if_neg (by omega), if_neg (by omega)]
        rw [this]
    · intro n hn h1 h2 l hl hrep
      rw [← hn, updateVIF_in_range dr lines n h1 h2 l hl oldV newV, if_pos hrep.symm]

/-- C3 witness: the three recovered failure modes of
`c3_failure_modes` at concrete inputs. -/
theorem c3_witness :
    updateVersionInFile false ["x: 1\n".data] 5 "1".data "2".data = (false, ["x: 1\n".data]) ∧
    updateVersionInFile false ["x: 1\n".data] (-3) "1".data "2".data = (false, ["x: 1\n".data]) ∧
    updateVersionInFile false ["x: 1\n".data] 1 "7.7".data "8.8".data = (false, ["x: 1\n".data]) := by
  refine ⟨?_, ?_, ?_⟩
  · exact (c3_failure_modes false ["x: 1\n".data] 5 "1".data "2".data).1 (by decide)
  · exact (c3_failure_modes false ["x: 1\n".data] (-3) "1".data "2".data).2.1 (by decide)
  · exact (c3_failure_modes false ["x: 1\n".data] 1 "7.7".data "8.8".data).2.2
      1 (by decide) (by decide) (by decide) "x: 1\n".data (by decide) (by decide)

/-- C8: a dry-run invocation never modifies the file (for every line number,
in range or not) while reporting exactly the success flag of a real run; a
real in-range rewrite leaves every line other than the target byte-identical;
and the concrete example of the spec rewrites `img: 1.0.0 # watchdog this`
to `img: 1.1.0 # watchdog this` in place. -/
theorem c8_frame_and_dry_run (lines : List (List Char)) (ln : Int)
    (oldV newV : List Char) (j : Nat) :
    ((updateVersionInFile true lines ln oldV newV).2 = lines) ∧
    ((updateVersionInFile true lines ln oldV newV).1
      = (updateVersionInFile false lines ln oldV newV).1) ∧
    (∀ n : Nat, (n : Int) = ln → 1 ≤ n → n ≤ lines.length → j ≠ n - 1 →
      ((updateVersionInFile false lines ln oldV newV).2)[j]? = lines[j]?) ∧
    (updateVersionInFile false ["img: 1.0.0 # watchdog this\n".data] 1
      "1.0.0".data "1.1.0".data
      = (true, ["img: 1.1.0 # watchdog this\n".data])) := by
  refine ⟨?_, ?_, ?_, by decide⟩
  · rw [updateVersionInFile]
    split
    · rfl
    · split
      · rfl
      · split
        · rfl
        · simp only []
          split
          · rfl
          · rfl
  · rw [updateVersionInFile, updateVersionInFile]
    split
    · rfl
    · split
      · rfl
      · split
        · rfl
        · simp only []
          split
          · rfl
          · rfl
  · intro n hn h1 h2 hj
    rw [← hn]
    cases hl : lines[n - 1]? with
    | none =>
      exfalso
      rw [List.getElem?_eq_none_iff] at hl
      omega
    | some l =>
      rw [updateVIF_in_range false lines n h1 h2 l hl oldV newV]
      split
      · rfl
      · show (lines.set (n - 1) (pyReplace l oldV newV))[j]? = lines[j]?
        exact List.getElem?_set_ne (fun h => hj h.symm)

/-- C8 witness: frame property exercised on a two-line file through
`c8_frame_and_dry_run`: rewriting line 2 leaves line 1 untouched, and a
dry run leaves the file unchanged. -/
theorem c8_witness :
    ((updateVersionInFile true ["a: 1\n".data, "b: 2\n".data] 2 "2".data "3".data).2
      = ["a: 1\n".data, "b: 2\n".data]) ∧
    ((updateVersionInFile false ["a: 1\n".data, "b: 2\n".data] 2 "2".data "3".data).2)[0]?
      = some "a: 1\n".data := by
  constructor
  · exact (c8_frame_and_dry_run ["a: 1\n".data, "b: 2\n".data] 2 "2".data "3".data 0).1
  · have h := (c8_frame_and_dry_run ["a: 1\n".data, "b: 2\n".data] 2 "2".data "3".data 0).2.2.1
      2 (by decide) (by decide) (by decide) (by decide)
    rw [h]
    decide

/-! ### Marker scanning -/

theorem lineMarker_eq_some {l f v : List Char} :
    lineMarker l = some (f, v) ↔ markerPhrase <:+: l ∧ scanLine l = some (f, v) := by
  rw [lineMarker]
  split
  · rename_i h; simp [h]
  · rename_i h; simp [h]

theorem findWatchdogAux_mem (ls : List (List Char)) : ∀ (i n : Nat) (f v : List Char),
    (n, f, v) ∈ findWatchdogAux i ls ↔
      ∃ j, i + j = n ∧ ∃ l, ls[j]? = some l ∧ lineMarker l = some (f, v) := by
  induction ls with
  | nil =>
    intro i n f v
    simp [findWatchdogAux]
  | cons l ls ih =>
    intro i n f v
    rw [findWatchdogAux]
    cases hm : lineMarker l with
    | some fv =>
      simp only [List.mem_cons, ih (i + 1) n f v, Prod.ext_iff]
      constructor
      · rintro (⟨hn, hf, hv⟩ | ⟨j, hj, l2, hl2, hm2⟩)
        · refine ⟨0, by omega, l, by simp, ?_⟩
          rw [hm]
          simp [Prod.ext_iff]
          exact ⟨hf.symm, hv.symm⟩
        · exact ⟨j + 1, by omega, l2, by simpa using hl2, hm2⟩
      · rintro ⟨j, hj, l2, hl2, hm2⟩
        cases j with
        | zero =>
          simp at hl2
          subst hl2
          rw [hm] at hm2
          have h2 := Option.some_inj.mp hm2
          left
          subst h2
          simp
          omega
        | succ j =>
          right
          exact ⟨j, by omega, l2, by simpa using hl2, hm2⟩
    | none =>
      rw [ih (i + 1) n f v]
      constructor
      · rintro ⟨j, hj, l2, hl2, hm2⟩
        exact ⟨j + 1, by omega, l2, by simpa using hl2, hm2⟩
      · rintro ⟨j, hj, l2, hl2, hm2⟩
        cases j with
        | zero =>
          simp at hl2
          subst hl2
          rw [hm] at hm2
          cases hm2
        | succ j =>
          exact ⟨j, by omega, l2, by simpa using hl2, hm2⟩

theorem findWatchdogAux_lb (ls : List (List Char)) : ∀ i, ∀ m ∈ findWatchdogAux i ls, i ≤ m.1 := by
  induction ls with
  | nil => intro i m hm; simp [findWatchdogAux] at hm
  | cons l ls ih =>
    intro i m hm
    rw [findWatchdogAux] at hm
    cases hm2 : lineMarker l with
    | some fv =>
      rw [hm2] at hm
      rcases List.mem_cons.mp hm with rfl | hm
      · simp
      · have := ih (i + 1) m hm
        omega
    | none =>
      rw [hm2] at hm
      have := ih (i + 1) m hm
      omega

theorem findWatchdogAux_sorted (ls : List (List Char)) : ∀ i,
    List.Pairwise (fun a b => a.1 < b.1) (findWatchdogAux i ls) := by
  induction ls with
  | nil => intro i; simp [findWatchdogAux]
  | cons l ls ih =>
    intro i
    rw [findWatchdogAux]
    cases hm : lineMarker l with
    | some fv =>
      refine List.Pairwise.cons ?_ (ih (i + 1))
      intro m hm2
      have := findWatchdogAux_lb ls (i + 1) m hm2
      simp
      omega
    | none => exact ih (i + 1)

/-- C5: `find_watchdog_lines` yields a marker for a line iff the line
contains the literal phrase `# watchdog this` and matches the line-leading
pattern `\s*(\w+):\s*([^\s#]+)`; each marker is `(1-based line number over
all lines, field name, value)`, markers appear in strictly increasing line
order, and phrase-bearing lines that do not match the pattern are silently
skipped — `addonChartVersion: 2.7.0 # watchdog this` yields the marker
`(1, "addonChartVersion", "2.7.0")` while a bare `# watchdog this` comment
yields none. -/
theorem c5_marker_scanner (lines : List (List Char)) :
    (∀ n f v, (n, f, v) ∈ findWatchdogLines lines ↔
      (1 ≤ n ∧ ∃ l, lines[n - 1]? = some l ∧ markerPhrase <:+: l ∧
        scanLine l = some (f, v))) ∧
    List.Pairwise (fun a b => a.1 < b.1) (findWatchdogLines lines) ∧
    findWatchdogLines ["addonChartVersion: 2.7.0 # watchdog this".data]
      = [(1, "addonChartVersion".data, "2.7.0".data)] ∧
    findWatchdogLines ["# watchdog this".data] = [] := by
  refine ⟨?_, findWatchdogAux_sorted lines 1, by decide, by decide⟩
  intro n f v
  rw [findWatchdogLines, findWatchdogAux_mem lines 1 n f v]
  constructor
  · rintro ⟨j, hj, l, hl, hm⟩
    have hms := lineMarker_eq_some.mp hm
    refine ⟨by omega, l, ?_, hms.1, hms.2⟩
    have : n - 1 = j := by omega
    rw [this]
    exact hl
  · rintro ⟨h1, l, hl, hinf, hscan⟩
    exact ⟨n - 1, by omega, l, hl, lineMarker_eq_some.mpr ⟨hinf, hscan⟩⟩

/-! ### The OCI tag filter -/

/-- C4: the candidate set produced from the accumulated OCI tag list is
exactly the tags matching `^v?\d+\.\d+\.\d+$` with leading `v`s stripped
(`lstrip("v")`); `v2.3.4` and `2.3.4` normalize to the same candidate, while
`2.3.4-beta` and `latest` are rejected, and the spec's example list yields
exactly `["1.0.0", "1.1.0"]`.  The last conjunct ties the filter to
`fetch_oci_versions` on a successfully fetched single-page tag list. -/
theorem c4_oci_filter (tags : List String) (v : String) :
    (v ∈ ociFilterTags tags ↔ ∃ t ∈ tags, matchesOciTag t = true ∧ v = stripV t) ∧
    ociFilterTags ["v1.0.0", "v1.1.0", "latest", "1.1.0-rc"] = ["1.0.0", "1.1.0"] ∧
    ociFilterTags ["v2.3.4"] = ociFilterTags ["2.3.4"] ∧
    ociFilterTags ["2.3.4-beta"] = [] ∧
    ociFilterTags ["latest"] = [] ∧
    fetchOciVersions "oci://ghcr.io/org/repo" [Except.ok ⟨tags, false⟩]
      = ociFilterTags tags := by
  refine ⟨?_, by decide, by decide, by decide, by decide, rfl⟩
  rw [ociFilterTags, List.mem_filterMap]
  constructor
  · rintro ⟨t, ht, hf⟩
    by_cases hm : matchesOciTag t = true
    · rw [if_pos hm] at hf
      exact ⟨t, ht, hm, (Option.some_inj.mp hf).symm⟩
    · rw [if_neg hm] at hf
      cases hf
  · rintro ⟨t, ht, hm, rfl⟩
    exact ⟨t, ht, by rw [if_pos hm]⟩

/-! ### Fetcher failure degradation -/

/-- C7: the fetchers never raise past their boundary in the embedding (they
are total functions), and every modelled failure yields the empty candidate
list: a raised error while fetching or parsing the RSS feed, a raised error
on any page of the paginated OCI tag fetch, and an OCI URL without a
`registry/repository` split. -/
theorem c7_fetchers_degrade (e : String) (s : String)
    (pages pages2 : List (Except Unit OciPage)) (url2 : String)
    (h : ociLoop pages = Except.error ()) (h2 : parseOciUrl url2 = none) :
    fetchRssVersions (Except.error e) = [] ∧
    fetchOciVersions s pages = [] ∧
    fetchOciVersions url2 pages2 = [] := by
  refine ⟨rfl, ?_, ?_⟩
  · rw [fetchOciVersions]
    cases hp : parseOciUrl s with
    | none => rfl
    | some u => rw [h]
  · rw [fetchOciVersions, h2]

/-- C7 witness: the three failure modes at concrete inputs through
`c7_fetchers_degrade`. -/
theorem c7_witness :
    fetchRssVersions (Except.error "timeout") = [] ∧
    fetchOciVersions "oci://ghcr.io/org/repo" [Except.error ()] = [] ∧
    fetchOciVersions "oci://nohost" [] = [] :=
  c7_fetchers_degrade "timeout" "oci://ghcr.io/org/repo" [Except.error ()] []
    "oci://nohost" rfl rfl

/-! ### `get_latest_version` selection -/

/-- C1 counterexample: with the unparseable candidate `bogus` present, the
whole parse comprehension raises and `get_latest_version` falls back to
`versions[0]`, returning `bogus` instead of excluding it and returning the
semver maximum `2.0.0`; and with ALL candidates unparseable it returns the
first candidate `aaa` — neither `None` nor the lexicographic maximum
`zzz`. -/
theorem c1_counterexample :
    getLatestVersion ["bogus", "1.0.0", "2.0.0"] = some "bogus" ∧
    getLatestVersion ["bogus", "1.0.0", "2.0.0"] ≠ some "2.0.0" ∧
    getLatestVersion ["aaa", "zzz"] = some "aaa" ∧
    getLatestVersion ["aaa", "zzz"] ≠ none ∧
    getLatestVersion ["aaa", "zzz"] ≠ some "zzz" := by decide

/-- C1 (amended): `get_latest_version` returns `None` iff the candidate list
is empty.  If every candidate parses (PEP 440), it returns the canonical
rendering of a maximal parsed candidate (Python `max`).  If ANY candidate
fails to parse — not only all of them — the whole selection aborts to the
fallback `versions[0]`: the first candidate, not the lexicographic
maximum. -/
theorem c1_latest_selection (versions : List String) :
    (getLatestVersion versions = none ↔ versions = []) ∧
    (∀ v0 rest parsed, versions = v0 :: rest → parseAll versions = some parsed →
      ∃ m ∈ parsed, (∀ p ∈ parsed, vcompare p m ≠ .gt) ∧
        getLatestVersion versions = some (renderVersion m)) ∧
    (∀ v0 rest, versions = v0 :: rest → parseAll versions = none →
      getLatestVersion versions = some v0) := by
  refine ⟨?_, ?_, ?_⟩
  · cases versions with
    | nil => simp [getLatestVersion]
    | cons v0 rest =>
      simp only [getLatestVersion]
      constructor
      · intro h
        cases hpa : parseAll (v0 :: rest) with
        | some parsed =>
          rw [hpa] at h
          cases hps : parsed with
          | nil => exact absurd hps (parseAll_cons_ne_nil hpa)
          | cons q qs =>
            rw [hps] at h
            simp [pyMax] at h
        | none =>
          rw [hpa] at h
          cases h
      · intro h
        cases h
  · intro v0 rest parsed hv hpa
    subst hv
    cases hps : parsed with
    | nil => exact absurd hps (parseAll_cons_ne_nil hpa)
    | cons q qs =>
      subst hps
      have hmax : pyMax (q :: qs) = some (qs.foldl
          (fun a x => if vcompare x a = .gt then x else a) q) := rfl
      refine ⟨qs.foldl (fun a x => if vcompare x a = .gt then x else a) q,
        pyMax_mem hmax, pyMax_not_gt hmax, ?_⟩
      simp only [getLatestVersion, hpa, hmax]
      rfl
  · intro v0 rest hv hpa
    subst hv
    simp only [getLatestVersion, hpa]

/-- C1 witness: the three cases of `c1_latest_selection` at concrete
inputs. -/
theorem c1_witness :
    getLatestVersion [] = none ∧
    getLatestVersion ["x7", "1.0.0"] = some "x7" ∧
    ∃ m ∈ [(⟨0, [1, 0, 0], none, none, none, none⟩ : PVersion),
           ⟨0, [2, 0, 0], none, none, none, none⟩],
      (∀ p ∈ [(⟨0, [1, 0, 0], none, none, none, none⟩ : PVersion),
              ⟨0, [2, 0, 0], none, none, none, none⟩], vcompare p m ≠ .gt) ∧
      getLatestVersion ["1.0.0", "2.0.0"] = some (renderVersion m) := by
  refine ⟨(c1_latest_selection []).1.mpr rfl, ?_, ?_⟩
  · exact (c1_latest_selection ["x7", "1.0.0"]).2.2 "x7" ["1.0.0"] rfl (by decide)
  · exact (c1_latest_selection ["1.0.0", "2.0.0"]).2.1 "1.0.0" ["2.0.0"] _ rfl (by decide)

/-! ### The release-segment ordering -/

theorem stripZeros_nil : stripZeros [] = [] := rfl

theorem stripZeros_eq_nil_iff (r : List Nat) : stripZeros r = [] ↔ ∀ x ∈ r, x = 0 := by
  rw [stripZeros]
  constructor
  · intro h x hx
    have h2 : r.reverse.dropWhile (· == 0) = [] := by
      cases he : r.reverse.dropWhile (· == 0) with
      | nil => rfl
      | cons a t => rw [he] at h; simp at h
    rw [List.dropWhile_eq_nil_iff] at h2
    have := h2 x (by simpa using hx)
    simpa using this
  · intro h
    have h2 : r.reverse.dropWhile (· == 0) = [] := by
      rw [List.dropWhile_eq_nil_iff]
      intro x hx
      simpa using h x (by simpa using hx)
    rw [h2]
    rfl

theorem stripZeros_cons (a : Nat) (r : List Nat) :
    stripZeros (a :: r) =
      if stripZeros r = [] then (if a = 0 then [] else [a]) else a :: stripZeros r := by
  rw [stripZeros, stripZeros]
  rw [show (a :: r).reverse = r.reverse ++ [a] by simp]
  rw [List.dropWhile_append]
  by_cases h : r.reverse.dropWhile (· == 0) = []
  · rw [h]
    simp only [List.isEmpty_nil, if_pos]
    by_cases ha : a = 0
    · subst ha
      simp [List.dropWhile]
    · simp only [List.dropWhile]
      rw [show (a == 0) = false from beq_eq_false_iff_ne.mpr ha]
      simp [ha]
  · rw [if_neg (by simpa using h), if_neg (by simpa [List.isEmpty_iff] using h)]
    simp

theorem cmpList_zeros_lt (r s : List Nat) (hlen : r.length = s.length)
    (hr : ∀ x ∈ r, x = 0) (hs : ∃ y ∈ s, y ≠ 0) :
    cmpList compare r s = .lt := by
  induction r generalizing s with
  | nil =>
    rcases hs with ⟨y, hy, _⟩
    cases s with
    | nil => simp at hy
    | cons b s2 => simp at hlen
  | cons a r2 ih =>
    cases s with
    | nil => simp at hlen
    | cons b s2 =>
      have ha : a = 0 := hr a (by simp)
      subst ha
      rw [cmpList]
      by_cases hb : b = 0
      · subst hb
        rw [show compare 0 0 = Ordering.eq from rfl]
        rw [Ordering.then]
        apply ih s2 (by simpa using hlen) (fun x hx => hr x (by simp [hx]))
        rcases hs with ⟨y, hy, hyne⟩
        rcases List.mem_cons.mp hy with rfl | hy2
        · cases hyne rfl
        · exact ⟨y, hy2, hyne⟩
      · have : compare 0 b = Ordering.lt := Nat.compare_eq_lt.mpr (by omega)
        rw [this]
        rfl

theorem cmpList_swap_nat (r s : List Nat) :
    (cmpList compare r s).swap = cmpList compare s r :=
  OrientedCmp.symm r s

theorem cmpList_all_zero_eq (r s : List Nat) (hlen : r.length = s.length)
    (hr : ∀ x ∈ r, x = 0) (hs : ∀ x ∈ s, x = 0) : cmpList compare r s = .eq := by
  have h1 : r = List.replicate r.length 0 := List.eq_replicate_iff.mpr ⟨rfl, hr⟩
  have h2 : s = List.replicate s.length 0 := List.eq_replicate_iff.mpr ⟨rfl, hs⟩
  rw [h1, h2, hlen]
  exact OrientedCmp.cmp_refl

theorem cmpList_cons_cons (c : Nat → Nat → Ordering) (a b : Nat) (r s : List Nat) :
    cmpList c (a :: r) (b :: s) = (c a b).then (cmpList c r s) := rfl

theorem cmpList_stripZeros (r s : List Nat) (hlen : r.length = s.length) :
    cmpList compare (stripZeros r) (stripZeros s) = cmpList compare r s := by
  induction r generalizing s with
  | nil =>
    cases s with
    | nil => rfl
    | cons b s2 => simp at hlen
  | cons a r2 ih =>
    cases s with
    | nil => simp at hlen
    | cons b s2 =>
      have hlen2 : r2.length = s2.length := by simpa using hlen
      rw [stripZeros_cons, stripZeros_cons, cmpList_cons_cons]
      by_cases h2 : stripZeros r2 = []
      · have hr2 := (stripZeros_eq_nil_iff r2).mp h2
        by_cases h3 : stripZeros s2 = []
        · have hs2 := (stripZeros_eq_nil_iff s2).mp h3
          have heq : cmpList compare r2 s2 = .eq := cmpList_all_zero_eq r2 s2 hlen2 hr2 hs2
          rw [if_pos h2, if_pos h3, heq]
          by_cases ha : a = 0
          · by_cases hb : b = 0
            · subst ha hb
              simp only [if_pos rfl]
              rfl
            · subst ha
              rw [if_pos rfl, if_neg hb]
              have hcb : compare 0 b = Ordering.lt := Nat.compare_eq_lt.mpr (by omega)
              rw [hcb]
              rfl
          · by_cases hb : b = 0
            · subst hb
              rw [if_neg ha, if_pos rfl]
              have hca : compare a 0 = Ordering.gt := by
                rw [cmpEqGt compare a 0]
                exact Nat.compare_eq_lt.mpr (by omega)
              rw [hca]
              rfl
            · rw [if_neg ha, if_neg hb, cmpList_cons_cons]
              rfl
        · -- r2 is all zeros, s2 is not
          have hs2ne : ∃ y ∈ s2, y ≠ 0 := by
            by_contra hc
            push_neg at hc
            exact h3 ((stripZeros_eq_nil_iff s2).mpr hc)
          have hlt : cmpList compare r2 s2 = .lt :=
            cmpList_zeros_lt r2 s2 hlen2 hr2 hs2ne
          rw [if_pos h2, if_neg h3, hlt]
          obtain ⟨q, qs, hq⟩ : ∃ q qs, stripZeros s2 = q :: qs := by
            cases hx : stripZeros s2 with
            | nil => exact absurd hx h3
            | cons q qs => exact ⟨q, qs, rfl⟩
          by_cases ha : a = 0
          · subst ha
            rw [if_pos rfl]
            have hlhs : cmpList compare [] (b :: stripZeros s2) = .lt := rfl
            rw [hlhs]
            cases hc : compare 0 b with
            | lt => rfl
            | eq => rfl
            | gt =>
              exfalso
              rw [cmpEqGt compare 0 b] at hc
              exact absurd (Nat.compare_eq_lt.mp hc) (by omega)
          · rw [if_neg ha, cmpList_cons_cons, hq]
            rfl
      · by_cases h3 : stripZeros s2 = []
        · -- s2 is all zeros, r2 is not
          have hs2 := (stripZeros_eq_nil_iff s2).mp h3
          have hr2ne : ∃ y ∈ r2, y ≠ 0 := by
            by_contra hc
            push_neg at hc
            exact h2 ((stripZeros_eq_nil_iff r2).mpr hc)
          have hgt : cmpList compare r2 s2 = .gt := by
            rw [← cmpList_swap_nat s2 r2]
            rw [cmpList_zeros_lt s2 r2 hlen2.symm hs2 hr2ne]
            rfl
          rw [if_neg h2, if_pos h3, hgt]
          obtain ⟨q, qs, hq⟩ : ∃ q qs, stripZeros r2 = q :: qs := by
            cases hx : stripZeros r2 with
            | nil => exact absurd hx h2
            | cons q qs => exact ⟨q, qs, rfl⟩
          by_cases hb : b = 0
          · subst hb
            rw [if_pos rfl]
            have hlhs : cmpList compare (a :: stripZeros r2) [] = .gt := by
              rw [hq]
              rfl
            rw [hlhs]
            cases hc : compare a 0 with
            | lt => exact absurd (Nat.compare_eq_lt.mp hc) (by omega)
            | eq => rfl
            | gt => rfl
          · rw [if_neg hb, cmpList_cons_cons, hq]
            rfl
        · rw [if_neg h2, if_neg h3, cmpList_cons_cons, ih s2 hlen2]

theorem ordering_then_eq (o : Ordering) : o.then .eq = o := by cases o <;> rfl

theorem natCompare_refl (e : Nat) : compare e e = .eq := OrientedCmp.cmp_refl

theorem cmpListNat_refl (r : List Nat) : cmpList compare r r = .eq := OrientedCmp.cmp_refl

theorem vcompare_unfold (a b : PVersion) :
    vcompare a b = (compare a.epoch b.epoch).then
      ((cmpList compare (relKey a) (relKey b)).then
        ((cmpList compare (preKeyEnc a) (preKeyEnc b)).then
          ((cmpList compare (postKeyEnc a) (postKeyEnc b)).then
            ((cmpList compare (devKeyEnc a) (devKeyEnc b)).then
              (cmpList (cmpList compare) (locKeyEnc a) (locKeyEnc b)))))) := rfl

theorem vcompare_release (r s : List Nat) :
    vcompare ⟨0, r, none, none, none, none⟩ ⟨0, s, none, none, none, none⟩
      = cmpList compare (stripZeros r) (stripZeros s) := by
  have h : vcompare ⟨0, r, none, none, none, none⟩ ⟨0, s, none, none, none, none⟩
      = (cmpList compare (stripZeros r) (stripZeros s)).then .eq := rfl
  rw [h, ordering_then_eq]

theorem vcompare_pre_release_lt (e : Nat) (rel : List Nat) (t : PreTag) (n : Nat)
    (lc lc2 : Option (List LSeg)) :
    vcompare ⟨e, rel, some (t, n), none, none, lc⟩ ⟨e, rel, none, none, none, lc2⟩
      = .lt := by
  rw [vcompare_unfold]
  have h1 : compare (PVersion.epoch ⟨e, rel, some (t, n), none, none, lc⟩)
      (PVersion.epoch ⟨e, rel, none, none, none, lc2⟩) = .eq := natCompare_refl e
  have h2 : cmpList compare (relKey ⟨e, rel, some (t, n), none, none, lc⟩)
      (relKey ⟨e, rel, none, none, none, lc2⟩) = .eq := cmpListNat_refl (stripZeros rel)
  have h3 : cmpList compare (preKeyEnc ⟨e, rel, some (t, n), none, none, lc⟩)
      (preKeyEnc ⟨e, rel, none, none, none, lc2⟩) = .lt := rfl
  rw [h1, h2, h3]
  rfl

theorem vcompare_local_lt (e : Nat) (rel : List Nat) (pr : Option (PreTag × Nat))
    (po dv : Option Nat) (segs : List LSeg) :
    vcompare ⟨e, rel, pr, po, dv, none⟩ ⟨e, rel, pr, po, dv, some segs⟩ = .lt := by
  rw [vcompare_unfold]
  have h1 : compare (PVersion.epoch ⟨e, rel, pr, po, dv, none⟩)
      (PVersion.epoch ⟨e, rel, pr, po, dv, some segs⟩) = .eq := natCompare_refl e
  have h2 : cmpList compare (relKey ⟨e, rel, pr, po, dv, none⟩)
      (relKey ⟨e, rel, pr, po, dv, some segs⟩) = .eq := cmpListNat_refl (stripZeros rel)
  have h3 : cmpList compare (preKeyEnc ⟨e, rel, pr, po, dv, none⟩)
      (preKeyEnc ⟨e, rel, pr, po, dv, some segs⟩) = .eq := OrientedCmp.cmp_refl
  have h4 : cmpList compare (postKeyEnc ⟨e, rel, pr, po, dv, none⟩)
      (postKeyEnc ⟨e, rel, pr, po, dv, some segs⟩) = .eq := OrientedCmp.cmp_refl
  have h5 : cmpList compare (devKeyEnc ⟨e, rel, pr, po, dv, none⟩)
      (devKeyEnc ⟨e, rel, pr, po, dv, some segs⟩) = .eq := OrientedCmp.cmp_refl
  have h6 : cmpList (cmpList compare) (locKeyEnc ⟨e, rel, pr, po, dv, none⟩)
      (locKeyEnc ⟨e, rel, pr, po, dv, some segs⟩) = .lt := rfl
  rw [h1, h2, h3, h4, h5, h6]
  rfl

/-- C6 counterexample: build metadata is NOT ignored by the ordering the
code uses.  `packaging` treats `+build` as a PEP 440 local version:
`1.2.3+build` compares strictly greater than `1.2.3`, and the `check`
decision flags an update from `1.2.3` to `1.2.3+build` although the two
differ only in build metadata. -/
theorem c6_counterexample :
    checkDecision (some "1.2.3+build") "1.2.3" = CStatus.updateAvailable ∧
    vcompare ⟨0, [1, 2, 3], none, none, none, none⟩
      ⟨0, [1, 2, 3], none, none, none, some [.str "build".data]⟩ = .lt := by decide

/-- C6 (amended): the ordering compares release segments numerically left to
right (for equal-length releases it is exactly numeric lexicographic
comparison, with trailing zeros immaterial), ranks a version with no
pre-release suffix strictly above one with the same release segments and a
pre-release suffix, and `latest(["1.2.3-rc1","1.2.3"]) = "1.2.3"`; a marker
pinned to the pre-release `1.2.3-rc1` is flagged as updatable to `1.2.3`.
However build metadata (a PEP 440 local version) is NOT ignored: a version
carrying local metadata ranks strictly above the same version without
it. -/
theorem c6_ordering (r s rel : List Nat) (e n : Nat) (t : PreTag)
    (pr : Option (PreTag × Nat)) (po dv : Option Nat) (lc lc2 : Option (List LSeg))
    (segs : List LSeg) :
    (r.length = s.length →
      vcompare ⟨0, r, none, none, none, none⟩ ⟨0, s, none, none, none, none⟩
        = cmpList compare r s) ∧
    vcompare ⟨e, rel, some (t, n), none, none, lc⟩ ⟨e, rel, none, none, none, lc2⟩ = .lt ∧
    vcompare ⟨e, rel, pr, po, dv, none⟩ ⟨e, rel, pr, po, dv, some segs⟩ = .lt ∧
    getLatestVersion ["1.2.3-rc1", "1.2.3"] = some "1.2.3" ∧
    checkDecision (some "1.2.3") "1.2.3-rc1" = CStatus.updateAvailable := by
  refine ⟨?_, vcompare_pre_release_lt e rel t n lc lc2,
    vcompare_local_lt e rel pr po dv segs, by decide, by decide⟩
  intro hlen
  rw [vcompare_release, cmpList_stripZeros r s hlen]

/-- C6 witness: the numeric release comparison of `c6_ordering` at a
concrete pair of equal-length releases. -/
theorem c6_witness :
    vcompare ⟨0, [1, 2, 4], none, none, none, none⟩ ⟨0, [1, 3, 0], none, none, none, none⟩
      = cmpList compare [1, 2, 4] [1, 3, 0] ∧
    cmpList compare [1, 2, 4] [1, 3, 0] = .lt :=
  ⟨(c6_ordering [1, 2, 4] [1, 3, 0] [] 0 0 PreTag.a none none none none none []).1 rfl,
    by decide⟩

/-! ### Character-class facts used by the render/parse round trip -/

theorem toLower_fix (c : Char) (h : c.toNat < 65 ∨ 90 < c.toNat) : Char.toLower c = c := by
  rw [Char.toLower]
  exact if_neg (by omega)

theorem renderChar_ok (c : Char)
    (h : isDigitC c = true ∨ (97 ≤ c.toNat ∧ c.toNat ≤ 122) ∨
      c.toNat = 46 ∨ c.toNat = 33 ∨ c.toNat = 43) :
    isWsC c = false ∧ Char.toLower c = c ∧ isValC c = true := by
  rw [isDigitC] at h
  simp only [Bool.and_eq_true, decide_eq_true_eq] at h
  refine ⟨?_, toLower_fix c (by omega), ?_⟩
  · rw [isWsC]
    simp only [Bool.or_eq_false_iff, decide_eq_false_iff_not]
    omega
  · rw [isValC, isWsC]
    simp only [Bool.and_eq_true, Bool.not_eq_true', Bool.or_eq_false_iff,
      decide_eq_false_iff_not, decide_eq_true_eq]
    omega

theorem digit_not_sep (c : Char) (h : isDigitC c = true) : isSepC c = false := by
  rw [isDigitC] at h
  simp only [Bool.and_eq_true, decide_eq_true_eq] at h
  rw [isSepC]
  simp only [Bool.or_eq_false_iff, decide_eq_false_iff_not]
  omega

theorem digit_ne_char (c : Char) (h : isDigitC c = true) (m : Nat)
    (hm : m < 48 ∨ 57 < m) (d : Char) (hd : d.toNat = m) : (d == c) = false := by
  rw [isDigitC] at h
  simp only [Bool.and_eq_true, decide_eq_true_eq] at h
  rw [beq_eq_false_iff_ne]
  intro he
  rw [he] at hd
  omega

theorem spanP_exact (p : Char → Bool) (ds rest : List Char)
    (hd : ∀ c ∈ ds, p c = true) (hr : ∀ c, rest.head? = some c → p c = false) :
    spanP p (ds ++ rest) = (ds, rest) := by
  induction ds with
  | nil =>
    cases rest with
    | nil => rfl
    | cons c r =>
      have := hr c rfl
      simp [spanP, List.takeWhile, List.dropWhile, this]
  | cons c ds2 ih =>
    have hc := hd c (by simp)
    have hds2 : ∀ x ∈ ds2, p x = true := fun x hx => hd x (by simp [hx])
    have h2 := ih hds2
    simp only [spanP, Prod.mk.injEq] at h2 ⊢
    simp [List.takeWhile, List.dropWhile, hc, h2.1, h2.2]

theorem dropWhile_eq_self_of (p : Char → Bool) (l : List Char)
    (h : ∀ c, l.head? = some c → p c = false) : l.dropWhile p = l := by
  cases l with
  | nil => rfl
  | cons c t => simp [List.dropWhile, h c rfl]

theorem trimWs_eq_self (l : List Char) (h : ∀ c ∈ l, isWsC c = false) : trimWs l = l := by
  rw [trimWs]
  rw [dropWhile_eq_self_of isWsC l (fun c hc => h c (by
    cases l with
    | nil => cases hc
    | cons a t =>
      simp at hc
      simp [hc]))]
  rw [dropWhile_eq_self_of isWsC l.reverse (fun c hc => h c (by
    cases hl : l.reverse with
    | nil => rw [hl] at hc; cases hc
    | cons a t =>
      rw [hl] at hc
      simp at hc
      subst hc
      have : a ∈ l.reverse := by rw [hl]; simp
      simpa using this))]
  simp

theorem map_toLower_eq_self (l : List Char) (h : ∀ c ∈ l, Char.toLower c = c) :
    l.map Char.toLower = l := by
  induction l with
  | nil => rfl
  | cons c t ih =>
    simp only [List.map_cons, h c (by simp), List.cons.injEq, true_and]
    exact ih (fun x hx => h x (by simp [hx]))

theorem dropV_eq_self (l : List Char) (h : ∀ c, l.head? = some c → c ≠ 'v') :
    dropV l = l := by
  cases l with
  | nil => rfl
  | cons c t =>
    rw [dropV.eq_def]
    split
    · rename_i r heq
      injection heq with h1 h2
      exact absurd h1 (h c rfl)
    · rfl

/-! ### Round trip of the release phase -/

theorem natToChars_cons (n : Nat) :
    ∃ d ds, natToChars n = d :: ds ∧ isDigitC d = true ∧ ∀ c ∈ ds, isDigitC c = true := by
  cases hn : natToChars n with
  | nil => exact absurd hn (natToChars_ne_nil n)
  | cons d ds =>
    refine ⟨d, ds, rfl, ?_, ?_⟩
    · have := natToChars_digits n d (by rw [hn]; simp)
      exact this
    · intro c hc
      exact natToChars_digits n c (by rw [hn]; simp [hc])

theorem renderRelease_cons (x : Nat) (xs : List Nat) :
    renderRelease (x :: xs) = natToChars x ++ renderRelTail xs := by
  induction xs generalizing x with
  | nil => simp [renderRelease, renderRelTail]
  | cons y ys ih =>
    show natToChars x ++ '.' :: renderRelease (y :: ys) = _
    rw [ih y, renderRelTail]
    simp

theorem relLoop_digits (ds : List Char) (hds : ∀ c ∈ ds, isDigitC c = true) :
    ∀ (acc : List Nat) (cur : Nat) (rest : List Char),
      relLoop acc cur (ds ++ rest)
        = relLoop acc (ds.foldl (fun a c => a * 10 + (c.toNat - 48)) cur) rest := by
  induction ds with
  | nil => intro acc cur rest; rfl
  | cons c ds2 ih =>
    intro acc cur rest
    have hc := hds c (by simp)
    have hds2 : ∀ x ∈ ds2, isDigitC x = true := fun x hx => hds x (by simp [hx])
    cases h2 : ds2 ++ rest with
    | nil =>
      rcases List.append_eq_nil.mp h2 with ⟨hds2n, hrn⟩
      subst hds2n hrn
      show relLoop acc cur [c] = _
      simp only [relLoop]
      rw [if_pos hc]
      simp [List.foldl]
    | cons d r =>
      show relLoop acc cur (c :: (ds2 ++ rest)) = _
      rw [h2]
      simp only [relLoop]
      rw [if_pos hc, ← h2]
      exact ih hds2 acc (cur * 10 + (c.toNat - 48)) rest

theorem relLoop_stop (acc : List Nat) (cur : Nat) (rest : List Char)
    (h1 : ∀ c, rest.head? = some c → isDigitC c = false)
    (h2 : ∀ c d r2, rest = c :: d :: r2 → c = '.' → isDigitC d = false) :
    relLoop acc cur rest = (acc ++ [cur], rest) := by
  cases rest with
  | nil => rfl
  | cons c r =>
    cases r with
    | nil =>
      rw [relLoop, if_neg (by rw [h1 c rfl]; simp)]
    | cons d r2 =>
      rw [relLoop, if_neg (by rw [h1 c rfl]; simp), if_neg ?_]
      simp only [Bool.and_eq_true, decide_eq_true_eq, not_and]
      intro hcd
      rw [h2 c d r2 rfl hcd]
      simp

theorem relLoop_tail (xs : List Nat) :
    ∀ (acc : List Nat) (cur : Nat) (rest : List Char),
      (∀ c, rest.head? = some c → isDigitC c = false) →
      (∀ c d r2, rest = c :: d :: r2 → c = '.' → isDigitC d = false) →
      relLoop acc cur (renderRelTail xs ++ rest) = (acc ++ cur :: xs, rest) := by
  induction xs with
  | nil =>
    intro acc cur rest h1 h2
    show relLoop acc cur rest = _
    rw [relLoop_stop acc cur rest h1 h2]
  | cons x xs2 ih =>
    intro acc cur rest h1 h2
    obtain ⟨d, ds, hnat, hd, hds⟩ := natToChars_cons x
    have hform : renderRelTail (x :: xs2) ++ rest
        = '.' :: d :: (ds ++ (renderRelTail xs2 ++ rest)) := by
      rw [renderRelTail, hnat]
      simp
    rw [hform]
    simp only [relLoop]
    rw [if_neg (by decide), if_pos (by simp [hd])]
    have hdig := relLoop_digits ds hds (acc ++ [cur]) (d.toNat - 48) (renderRelTail xs2 ++ rest)
    rw [hdig]
    have hfold : ds.foldl (fun a c => a * 10 + (c.toNat - 48)) (d.toNat - 48)
        = parseNatChars (natToChars x) := by
      rw [hnat, parseNatChars]
      simp [List.foldl_cons]
    rw [hfold, parseNat_natToChars]
    rw [ih (acc ++ [cur]) x rest h1 h2]
    simp

theorem parseRelease_render (r : List Nat) (hr : r ≠ []) (rest : List Char)
    (h1 : ∀ c, rest.head? = some c → isDigitC c = false)
    (h2 : ∀ c d r2, rest = c :: d :: r2 → c = '.' → isDigitC d = false) :
    parseRelease (renderRelease r ++ rest) = some (r, rest) := by
  cases r with
  | nil => exact absurd rfl hr
  | cons x xs =>
    rw [renderRelease_cons]
    obtain ⟨d, ds, hnat, hd, hds⟩ := natToChars_cons x
    have hform : (natToChars x ++ renderRelTail xs) ++ rest
        = d :: (ds ++ (renderRelTail xs ++ rest)) := by
      rw [hnat]
      simp
    rw [hform]
    simp only [parseRelease]
    rw [if_pos hd]
    rw [relLoop_digits ds hds [] (d.toNat - 48) (renderRelTail xs ++ rest)]
    have hfold : ds.foldl (fun a c => a * 10 + (c.toNat - 48)) (d.toNat - 48)
        = parseNatChars (natToChars x) := by
      rw [hnat, parseNatChars]
      simp [List.foldl_cons]
    rw [hfold, parseNat_natToChars]
    rw [relLoop_tail xs [] x rest h1 h2]
    rfl

theorem parseEpoch_present (e : Nat) (rest : List Char) :
    parseEpoch (natToChars e ++ '!' :: rest) = (e, rest) := by
  rw [parseEpoch]
  rw [spanP_exact isDigitC (natToChars e) ('!' :: rest) (natToChars_digits e)
    (by intro c hc; simp at hc; subst hc; rfl)]
  obtain ⟨d, ds, hnat, hd, hds⟩ := natToChars_cons e
  rw [hnat]
  show (parseNatChars (d :: ds), rest) = (e, rest)
  rw [← hnat, parseNat_natToChars]

theorem parseEpoch_absent (ds rest : List Char) (hds : ∀ c ∈ ds, isDigitC c = true)
    (hr : ∀ c, rest.head? = some c → isDigitC c = false ∧ c ≠ '!') :
    parseEpoch (ds ++ rest) = (0, ds ++ rest) := by
  rw [parseEpoch]
  rw [spanP_exact isDigitC ds rest hds (fun c hc => (hr c hc).1)]
  cases ds with
  | nil => rfl
  | cons d ds2 =>
    cases rest with
    | nil => rfl
    | cons c r =>
      have hc := (hr c rfl).2
      show (match c :: r with
        | '!' :: r2 => (parseNatChars (d :: ds2), r2)
        | _ => (0, d :: ds2 ++ c :: r)) = _
      split
      · rename_i r2 heq
        injection heq with hh1 hh2
        exact absurd hh1 hc
      · rfl

/-! ### Round trip of the pre/post/dev/local phases -/

theorem dropOneSep_id (c : Char) (r : List Char) (h : isSepC c = false) :
    dropOneSep (c :: r) = c :: r := by
  simp only [dropOneSep]
  rw [if_neg (by simp [h])]

theorem dropOneSep_sep (c : Char) (r : List Char) (h : isSepC c = true) :
    dropOneSep (c :: r) = r := by
  simp only [dropOneSep]
  rw [if_pos h]

theorem matchPre_none_post (rest : List Char) :
    matchFirstTag preWords ('p' :: 'o' :: 's' :: 't' :: rest) = none := rfl

theorem matchPre_none_dev (rest : List Char) :
    matchFirstTag preWords ('d' :: 'e' :: 'v' :: rest) = none := rfl

theorem matchPre_none_plus (rest : List Char) :
    matchFirstTag preWords ('+' :: rest) = none := rfl

theorem matchPre_none_nil : matchFirstTag preWords ([] : List Char) = none := rfl

theorem matchPost_none_dev (rest : List Char) :
    matchFirstTag postWords ('d' :: 'e' :: 'v' :: rest) = none := rfl

theorem matchPost_none_plus (rest : List Char) :
    matchFirstTag postWords ('+' :: rest) = none := rfl

theorem matchPost_none_nil : matchFirstTag postWords ([] : List Char) = none := rfl

theorem matchDev_none_plus (rest : List Char) :
    matchWord "dev".data ('+' :: rest) = none := rfl

theorem matchDev_none_nil : matchWord "dev".data ([] : List Char) = none := rfl

theorem matchPre_a (d : Char) (hd : isDigitC d = true) (r : List Char) :
    matchFirstTag preWords ('a' :: d :: r) = some (PreTag.a, d :: r) := by
  have hne : ('l' == d) = false := digit_ne_char d hd 108 (by omega) 'l' rfl
  simp [preWords, matchFirstTag, matchWord, List.isPrefixOf, hne]

theorem matchPre_b (d : Char) (hd : isDigitC d = true) (r : List Char) :
    matchFirstTag preWords ('b' :: d :: r) = some (PreTag.b, d :: r) := by
  have hne : ('e' == d) = false := digit_ne_char d hd 101 (by omega) 'e' rfl
  simp [preWords, matchFirstTag, matchWord, List.isPrefixOf, hne]

theorem matchPre_rc (r : List Char) :
    matchFirstTag preWords ('r' :: 'c' :: r) = some (PreTag.rc, r) := by
  simp [preWords, matchFirstTag, matchWord, List.isPrefixOf]

theorem tryPre_none (s : List Char)
    (h : matchFirstTag preWords (dropOneSep s) = none) : tryPre s = (none, s) := by
  simp only [tryPre, h]

theorem tryPre_render (t : PreTag) (n : Nat) (rest : List Char)
    (hrest : ∀ c, rest.head? = some c → isDigitC c = false) :
    tryPre (preTagChars t ++ natToChars n ++ rest) = (some (t, n), rest) := by
  obtain ⟨d, ds, hnat, hd, hds⟩ := natToChars_cons n
  have hspan : spanP isDigitC (d :: (ds ++ rest)) = (d :: ds, rest) := by
    have := spanP_exact isDigitC (d :: ds) rest
      (by intro c hc
          rcases List.mem_cons.mp hc with rfl | hc2
          · exact hd
          · exact hds c hc2) hrest
    simpa using this
  have hnum : parseNatChars (d :: ds) = n := by rw [← hnat, parseNat_natToChars]
  cases t with
  | a =>
    have hform : preTagChars PreTag.a ++ natToChars n ++ rest = 'a' :: d :: (ds ++ rest) := by
      rw [hnat]
      simp [preTagChars]
    rw [hform]
    simp only [tryPre]
    rw [dropOneSep_id 'a' _ (by decide), matchPre_a d hd (ds ++ rest)]
    simp only []
    rw [dropOneSep_id d _ (digit_not_sep d hd), hspan]
    simp [hnum]
  | b =>
    have hform : preTagChars PreTag.b ++ natToChars n ++ rest = 'b' :: d :: (ds ++ rest) := by
      rw [hnat]
      simp [preTagChars]
    rw [hform]
    simp only [tryPre]
    rw [dropOneSep_id 'b' _ (by decide), matchPre_b d hd (ds ++ rest)]
    simp only []
    rw [dropOneSep_id d _ (digit_not_sep d hd), hspan]
    simp [hnum]
  | rc =>
    have hform : preTagChars PreTag.rc ++ natToChars n ++ rest
        = 'r' :: 'c' :: (d :: (ds ++ rest)) := by
      rw [hnat]
      simp [preTagChars]
    rw [hform]
    simp only [tryPre]
    rw [dropOneSep_id 'r' _ (by decide), matchPre_rc (d :: (ds ++ rest))]
    simp only []
    rw [dropOneSep_id d _ (digit_not_sep d hd), hspan]
    simp [hnum]

theorem tryPost_not_dash (s : List Char) (h0 : ∀ r, s ≠ '-' :: r)
    (h : matchFirstTag postWords (dropOneSep s) = none) : tryPost s = (none, s) := by
  rw [tryPost.eq_def]
  split
  · rename_i r
    exact absurd rfl (h0 r)
  · simp only [tryPostWord, h]

theorem matchPost_post (r : List Char) :
    matchFirstTag postWords ('p' :: 'o' :: 's' :: 't' :: r) = some ((), r) := by
  simp [postWords, matchFirstTag, matchWord, List.isPrefixOf]

theorem tryPost_render (n : Nat) (rest : List Char)
    (hrest : ∀ c, rest.head? = some c → isDigitC c = false) :
    tryPost ('.' :: 'p' :: 'o' :: 's' :: 't' :: (natToChars n ++ rest)) = (some n, rest) := by
  obtain ⟨d, ds, hnat, hd, hds⟩ := natToChars_cons n
  have hspan : spanP isDigitC (d :: (ds ++ rest)) = (d :: ds, rest) := by
    have := spanP_exact isDigitC (d :: ds) rest
      (by intro c hc
          rcases List.mem_cons.mp hc with rfl | hc2
          · exact hd
          · exact hds c hc2) hrest
    simpa using this
  have hnum : parseNatChars (d :: ds) = n := by rw [← hnat, parseNat_natToChars]
  have hform : natToChars n ++ rest = d :: (ds ++ rest) := by rw [hnat]; simp
  rw [hform]
  show tryPostWord ('.' :: 'p' :: 'o' :: 's' :: 't' :: d :: (ds ++ rest)) = _
  simp only [tryPostWord]
  rw [dropOneSep_sep '.' _ (by decide), matchPost_post (d :: (ds ++ rest))]
  simp only []
  rw [dropOneSep_id d _ (digit_not_sep d hd), hspan]
  simp [hnum]

theorem tryDev_none (s : List Char) (h : matchWord "dev".data (dropOneSep s) = none) :
    tryDev s = (none, s) := by
  simp only [tryDev, h]

theorem tryDev_render (n : Nat) (rest : List Char)
    (hrest : ∀ c, rest.head? = some c → isDigitC c = false) :
    tryDev ('.' :: 'd' :: 'e' :: 'v' :: (natToChars n ++ rest)) = (some n, rest) := by
  obtain ⟨d, ds, hnat, hd, hds⟩ := natToChars_cons n
  have hspan : spanP isDigitC (d :: (ds ++ rest)) = (d :: ds, rest) := by
    have := spanP_exact isDigitC (d :: ds) rest
      (by intro c hc
          rcases List.mem_cons.mp hc with rfl | hc2
          · exact hd
          · exact hds c hc2) hrest
    simpa using this
  have hnum : parseNatChars (d :: ds) = n := by rw [← hnat, parseNat_natToChars]
  have hform : natToChars n ++ rest = d :: (ds ++ rest) := by rw [hnat]; simp
  rw [hform]
  simp only [tryDev]
  rw [dropOneSep_sep '.' _ (by decide)]
  rw [show matchWord "dev".data ('d' :: 'e' :: 'v' :: d :: (ds ++ rest))
      = some (d :: (ds ++ rest)) from by simp [matchWord, List.isPrefixOf]]
  simp only []
  rw [dropOneSep_id d _ (digit_not_sep d hd), hspan]
  simp [hnum]

theorem locLoop_chars (cs : List Char) (hcs : ∀ c ∈ cs, isLocAlC c = true) :
    ∀ (acc : List LSeg) (cur : List Char) (rest : List Char),
      locLoop acc cur (cs ++ rest) = locLoop acc (cur ++ cs) rest := by
  induction cs with
  | nil => intro acc cur rest; simp
  | cons c cs2 ih =>
    intro acc cur rest
    have hc := hcs c (by simp)
    have hcs2 : ∀ x ∈ cs2, isLocAlC x = true := fun x hx => hcs x (by simp [hx])
    cases h2 : cs2 ++ rest with
    | nil =>
      rcases List.append_eq_nil.mp h2 with ⟨hn1, hn2⟩
      subst hn1 hn2
      show locLoop acc cur [c] = locLoop acc (cur ++ [c]) []
      simp only [locLoop]
      rw [if_pos hc]
    | cons d r =>
      show locLoop acc cur (c :: (cs2 ++ rest)) = _
      rw [h2]
      simp only [locLoop]
      rw [if_pos hc, ← h2, ih hcs2 acc (cur ++ [c]) rest]
      simp

theorem lsegChars_ok (sg : LSeg) (h : lsegWF sg) :
    (∃ e cs, lsegChars sg = e :: cs) ∧ (∀ c ∈ lsegChars sg, isLocAlC c = true) ∧
      mkSeg (lsegChars sg) = sg := by
  cases sg with
  | num n =>
    obtain ⟨d, ds, hnat, hd, hds⟩ := natToChars_cons n
    refine ⟨⟨d, ds, by simp [lsegChars, hnat]⟩, ?_, ?_⟩
    · intro c hc
      have hdig := natToChars_digits n c (by simpa [lsegChars] using hc)
      rw [isLocAlC, hdig]
      rfl
    · show mkSeg (natToChars n) = LSeg.num n
      rw [mkSeg, if_pos (List.all_eq_true.mpr (fun c hc => natToChars_digits n c hc)),
        parseNat_natToChars]
  | str s =>
    obtain ⟨hne, hchars, c0, hc0, hc0d⟩ := h
    refine ⟨?_, hchars, ?_⟩
    · cases s with
      | nil => exact absurd rfl hne
      | cons e cs => exact ⟨e, cs, rfl⟩
    · show mkSeg s = LSeg.str s
      rw [mkSeg, if_neg ?_]
      rw [List.all_eq_true]
      push_neg
      exact ⟨c0, hc0, by simp [hc0d]⟩

theorem locLoop_tail (segs : List LSeg) (h : ∀ sg ∈ segs, lsegWF sg) :
    ∀ (acc : List LSeg) (cur : List Char),
      locLoop acc cur (renderLocalTail segs) = (acc ++ mkSeg cur :: segs, []) := by
  induction segs with
  | nil =>
    intro acc cur
    show locLoop acc cur [] = _
    simp [locLoop]
  | cons sg more ih =>
    intro acc cur
    obtain ⟨⟨e, cs, hchars⟩, hall, hmk⟩ := lsegChars_ok sg (h sg (by simp))
    have hform : renderLocalTail (sg :: more) = '.' :: e :: (cs ++ renderLocalTail more) := by
      rw [renderLocalTail, hchars]
      simp
    rw [hform]
    simp only [locLoop]
    rw [if_neg (by decide), if_pos ?_]
    · rw [locLoop_chars cs (fun x hx => hall x (by rw [hchars]; simp [hx]))
        (acc ++ [mkSeg cur]) [e] (renderLocalTail more)]
      rw [show ([e] ++ cs : List Char) = lsegChars sg from by simp [hchars]]
      rw [ih (fun x hx => h x (by simp [hx])) (acc ++ [mkSeg cur]) (lsegChars sg), hmk]
      simp
    · have := hall e (by rw [hchars]; simp)
      simp [this]
      decide

theorem renderLocalSegs_cons (sg : LSeg) (rest : List LSeg) :
    renderLocalSegs (sg :: rest) = lsegChars sg ++ renderLocalTail rest := by
  induction rest generalizing sg with
  | nil => simp [renderLocalSegs, renderLocalTail]
  | cons y ys ih =>
    show lsegChars sg ++ '.' :: renderLocalSegs (y :: ys) = _
    rw [ih y, renderLocalTail]
    simp

theorem tryLocal_nil : tryLocal [] = some (none, []) := rfl

theorem tryLocal_render (segs : List LSeg) (hne : segs ≠ [])
    (h : ∀ sg ∈ segs, lsegWF sg) :
    tryLocal ('+' :: renderLocalSegs segs) = some (some segs, []) := by
  cases segs with
  | nil => exact absurd rfl hne
  | cons sg more =>
    obtain ⟨⟨e, cs, hchars⟩, hall, hmk⟩ := lsegChars_ok sg (h sg (by simp))
    have hform : renderLocalSegs (sg :: more) = e :: (cs ++ renderLocalTail more) := by
      rw [renderLocalSegs_cons, hchars]
      simp
    rw [hform]
    show tryLocal ('+' :: e :: (cs ++ renderLocalTail more)) = _
    simp only [tryLocal]
    rw [if_pos (hall e (by rw [hchars]; simp))]
    rw [locLoop_chars cs (fun x hx => hall x (by rw [hchars]; simp [hx]))
      [] [e] (renderLocalTail more)]
    rw [show ([e] ++ cs : List Char) = lsegChars sg from by simp [hchars]]
    rw [locLoop_tail more (fun x hx => h x (by simp [hx])) [] (lsegChars sg), hmk]
    rfl

/-! ### Character classes of the canonical rendering -/

/-- The characters that can occur in a canonical rendering: digits, lowercase
letters, `'.'`, `'!'`, `'+'`. -/
def goodChar (c : Char) : Prop :=
  isDigitC c = true ∨ (97 ≤ c.toNat ∧ c.toNat ≤ 122) ∨
    c.toNat = 46 ∨ c.toNat = 33 ∨ c.toNat = 43

instance goodCharDec (c : Char) : Decidable (goodChar c) := by
  unfold goodChar
  infer_instance

theorem isLocAlC_good (c : Char) (h : isLocAlC c = true) : goodChar c := by
  rw [isLocAlC] at h
  simp only [Bool.or_eq_true, Bool.and_eq_true, decide_eq_true_eq] at h
  rcases h with h | h
  · exact Or.inl h
  · exact Or.inr (Or.inl h)

theorem natToChars_good (n : Nat) : ∀ c ∈ natToChars n, goodChar c :=
  fun c hc => Or.inl (natToChars_digits n c hc)

theorem renderRelease_good (r : List Nat) : ∀ c ∈ renderRelease r, goodChar c := by
  induction r with
  | nil => intro c hc; simp [renderRelease] at hc
  | cons x xs ih =>
    intro c hc
    cases xs with
    | nil =>
      rw [show renderRelease [x] = natToChars x from rfl] at hc
      exact natToChars_good x c hc
    | cons y ys =>
      rw [show renderRelease (x :: y :: ys)
          = natToChars x ++ '.' :: renderRelease (y :: ys) from rfl] at hc
      rcases List.mem_append.mp hc with h1 | h2
      · exact natToChars_good x c h1
      · rcases List.mem_cons.mp h2 with rfl | h3
        · decide
        · exact ih c h3

theorem preTagChars_good (t : PreTag) : ∀ c ∈ preTagChars t, goodChar c := by
  cases t <;> decide

theorem lsegChars_good (sg : LSeg) (h : lsegWF sg) : ∀ c ∈ lsegChars sg, goodChar c := by
  cases sg with
  | num n => exact fun c hc => natToChars_good n c hc
  | str s => exact fun c hc => isLocAlC_good c (h.2.1 c hc)

theorem renderLocalSegs_good (segs : List LSeg) (h : ∀ sg ∈ segs, lsegWF sg) :
    ∀ c ∈ renderLocalSegs segs, goodChar c := by
  induction segs with
  | nil => intro c hc; simp [renderLocalSegs] at hc
  | cons sg more ih =>
    intro c hc
    cases more with
    | nil =>
      rw [show renderLocalSegs [sg] = lsegChars sg from rfl] at hc
      exact lsegChars_good sg (h sg (by simp)) c hc
    | cons y ys =>
      rw [show renderLocalSegs (sg :: y :: ys)
          = lsegChars sg ++ '.' :: renderLocalSegs (y :: ys) from rfl] at hc
      rcases List.mem_append.mp hc with h1 | h2
      · exact lsegChars_good sg (h sg (by simp)) c h1
      · rcases List.mem_cons.mp h2 with rfl | h3
        · decide
        · exact ih (fun x hx => h x (by simp [hx])) c h3

theorem epochPart_good (v : PVersion) : ∀ c ∈ epochPart v, goodChar c := by
  intro c hc
  rw [epochPart] at hc
  split at hc
  · simp at hc
  · rcases List.mem_append.mp hc with h1 | h2
    · exact natToChars_good _ c h1
    · rcases List.mem_singleton.mp h2 with rfl
      decide

theorem prePart_good (v : PVersion) : ∀ c ∈ prePart v, goodChar c := by
  intro c hc
  rw [prePart] at hc
  split at hc
  · simp at hc
  · rename_i t n hpre
    rcases List.mem_append.mp hc with h1 | h2
    · exact preTagChars_good t c h1
    · exact natToChars_good n c h2

theorem postPart_good (v : PVersion) : ∀ c ∈ postPart v, goodChar c := by
  intro c hc
  rw [postPart] at hc
  split at hc
  · simp at hc
  · rename_i n hpo
    simp only [List.mem_cons] at hc
    rcases hc with rfl | rfl | rfl | rfl | rfl | h
    · decide
    · decide
    · decide
    · decide
    · decide
    · exact natToChars_good n c h

theorem devPart_good (v : PVersion) : ∀ c ∈ devPart v, goodChar c := by
  intro c hc
  rw [devPart] at hc
  split at hc
  · simp at hc
  · rename_i n hdv
    simp only [List.mem_cons] at hc
    rcases hc with rfl | rfl | rfl | rfl | h
    · decide
    · decide
    · decide
    · decide
    · exact natToChars_good n c h

theorem localPart_good (v : PVersion) (h : pvWF v) : ∀ c ∈ localPart v, goodChar c := by
  intro c hc
  rw [localPart] at hc
  split at hc
  · simp at hc
  · rename_i segs hseg
    rcases List.mem_cons.mp hc with rfl | h2
    · decide
    · exact renderLocalSegs_good segs (h.2 segs hseg).2 c h2

theorem renderChars_good (v : PVersion) (h : pvWF v) :
    ∀ c ∈ renderVersionChars v, goodChar c := by
  intro c hc
  rw [renderVersionChars] at hc
  simp only [List.mem_append] at hc
  rcases hc with ((((h1 | h2) | h3) | h4) | h5) | h6
  · exact epochPart_good v c h1
  · exact renderRelease_good v.release c h2
  · exact prePart_good v c h3
  · exact postPart_good v c h4
  · exact devPart_good v c h5
  · exact localPart_good v h c h6

theorem renderChars_head (v : PVersion) (h : pvWF v) :
    ∃ d ds, renderVersionChars v = d :: ds ∧ isDigitC d = true := by
  by_cases he : v.epoch = 0
  · obtain ⟨x, xs, hx⟩ : ∃ x xs, v.release = x :: xs := by
      cases hr : v.release with
      | nil => exact absurd hr h.1
      | cons x xs => exact ⟨x, xs, rfl⟩
    obtain ⟨d, ds, hnat, hd, _⟩ := natToChars_cons x
    refine ⟨d, ds ++ (renderRelTail xs ++ (prePart v ++ (postPart v ++ (devPart v ++ localPart v)))), ?_, hd⟩
    rw [renderVersionChars, epochPart, if_pos he, List.nil_append, hx,
      renderRelease_cons, hnat]
    simp
  · obtain ⟨d, ds, hnat, hd, _⟩ := natToChars_cons v.epoch
    refine ⟨d, ds ++ ('!' :: (renderRelease v.release ++ (prePart v ++ (postPart v ++ (devPart v ++ localPart v))))), ?_, hd⟩
    rw [renderVersionChars, epochPart, if_neg he, hnat]
    simp

theorem clean_render (v : PVersion) (h : pvWF v) :
    dropV ((trimWs (renderVersionChars v)).map Char.toLower) = renderVersionChars v := by
  have hgood := renderChars_good v h
  have h1 : trimWs (renderVersionChars v) = renderVersionChars v :=
    trimWs_eq_self _ (fun c hc => (renderChar_ok c (hgood c hc)).1)
  have h2 : (renderVersionChars v).map Char.toLower = renderVersionChars v :=
    map_toLower_eq_self _ (fun c hc => (renderChar_ok c (hgood c hc)).2.1)
  rw [h1, h2]
  obtain ⟨d, ds, hform, hd⟩ := renderChars_head v h
  refine dropV_eq_self _ (fun c hc hv => ?_)
  rw [hform] at hc
  simp only [List.head?_cons, Option.some.injEq] at hc
  subst hc
  subst hv
  exact absurd hd (by decide)

/-! ### The shape of the rendering after each phase -/

theorem localPart_head (v : PVersion) :
    ∀ c, (localPart v).head? = some c → c = '+' := by
  intro c hc
  rw [localPart] at hc
  split at hc
  · simp at hc
  · simp only [List.head?_cons, Option.some.injEq] at hc
    exact hc.symm

theorem afterPost_head (v : PVersion) :
    ∀ c, (devPart v ++ localPart v).head? = some c → c = '.' ∨ c = '+' := by
  intro c hc
  cases hd : v.dev with
  | some n =>
    rw [show devPart v = '.' :: 'd' :: 'e' :: 'v' :: natToChars n from by
      simp [devPart, hd]] at hc
    simp only [List.cons_append, List.head?_cons, Option.some.injEq] at hc
    exact Or.inl hc.symm
  | none =>
    rw [show devPart v = [] from by simp [devPart, hd], List.nil_append] at hc
    exact Or.inr (localPart_head v c hc)

theorem afterPre_head (v : PVersion) :
    ∀ c, (postPart v ++ (devPart v ++ localPart v)).head? = some c → c = '.' ∨ c = '+' := by
  intro c hc
  cases hp : v.post with
  | some n =>
    rw [show postPart v = '.' :: 'p' :: 'o' :: 's' :: 't' :: natToChars n from by
      simp [postPart, hp]] at hc
    simp only [List.cons_append, List.head?_cons, Option.some.injEq] at hc
    exact Or.inl hc.symm
  | none =>
    rw [show postPart v = [] from by simp [postPart, hp], List.nil_append] at hc
    exact afterPost_head v c hc

theorem afterPre_head_nd (v : PVersion) :
    ∀ c, (postPart v ++ (devPart v ++ localPart v)).head? = some c → isDigitC c = false := by
  intro c hc
  rcases afterPre_head v c hc with rfl | rfl <;> decide

theorem afterPost_head_nd (v : PVersion) :
    ∀ c, (devPart v ++ localPart v).head? = some c → isDigitC c = false := by
  intro c hc
  rcases afterPost_head v c hc with rfl | rfl <;> decide

theorem localPart_head_nd (v : PVersion) :
    ∀ c, (localPart v).head? = some c → isDigitC c = false := by
  intro c hc
  rcases localPart_head v c hc with rfl
  decide

theorem afterRel_head (v : PVersion) :
    ∀ c, (prePart v ++ (postPart v ++ (devPart v ++ localPart v))).head? = some c →
      isDigitC c = false ∧ c ≠ '!' := by
  intro c hc
  cases hp : v.pre with
  | some tn =>
    obtain ⟨t, n⟩ := tn
    rw [show prePart v = preTagChars t ++ natToChars n from by simp [prePart, hp]] at hc
    cases t
    · rw [show preTagChars PreTag.a = ['a'] from rfl] at hc
      simp only [List.cons_append, List.nil_append, List.head?_cons,
        Option.some.injEq] at hc
      subst hc
      exact ⟨by decide, by decide⟩
    · rw [show preTagChars PreTag.b = ['b'] from rfl] at hc
      simp only [List.cons_append, List.nil_append, List.head?_cons,
        Option.some.injEq] at hc
      subst hc
      exact ⟨by decide, by decide⟩
    · rw [show preTagChars PreTag.rc = ['r', 'c'] from rfl] at hc
      simp only [List.cons_append, List.nil_append, List.head?_cons,
        Option.some.injEq] at hc
      subst hc
      exact ⟨by decide, by decide⟩
  | none =>
    rw [show prePart v = [] from by simp [prePart, hp], List.nil_append] at hc
    rcases afterPre_head v c hc with rfl | rfl
    · exact ⟨by decide, by decide⟩
    · exact ⟨by decide, by decide⟩

theorem afterRel_dot (v : PVersion) :
    ∀ c d r2, prePart v ++ (postPart v ++ (devPart v ++ localPart v)) = c :: d :: r2 →
      c = '.' → isDigitC d = false := by
  intro c d r2 heq hcdot
  subst hcdot
  cases hp : v.pre with
  | some tn =>
    obtain ⟨t, n⟩ := tn
    rw [show prePart v = preTagChars t ++ natToChars n from by simp [prePart, hp]] at heq
    cases t
    · injection heq with h1 _
      exact absurd h1 (by decide)
    · injection heq with h1 _
      exact absurd h1 (by decide)
    · injection heq with h1 _
      exact absurd h1 (by decide)
  | none =>
    rw [show prePart v = [] from by simp [prePart, hp], List.nil_append] at heq
    cases hpo : v.post with
    | some m =>
      rw [show postPart v = '.' :: 'p' :: 'o' :: 's' :: 't' :: natToChars m from by
        simp [postPart, hpo]] at heq
      injection heq with _ h2
      injection h2 with h3 _
      rw [← h3]
      decide
    | none =>
      rw [show postPart v = [] from by simp [postPart, hpo], List.nil_append] at heq
      cases hdv : v.dev with
      | some m =>
        rw [show devPart v = '.' :: 'd' :: 'e' :: 'v' :: natToChars m from by
          simp [devPart, hdv]] at heq
        injection heq with _ h2
        injection h2 with h3 _
        rw [← h3]
        decide
      | none =>
        rw [show devPart v = [] from by simp [devPart, hdv], List.nil_append] at heq
        cases hl : v.loc with
        | none =>
          rw [show localPart v = [] from by simp [localPart, hl]] at heq
          exact absurd heq (by simp)
        | some segs =>
          rw [show localPart v = '+' :: renderLocalSegs segs from by
            simp [localPart, hl]] at heq
          injection heq with h1 _
          exact absurd h1 (by decide)

theorem relTail_head (xs : List Nat) (T : List Char)
    (hT : ∀ c, T.head? = some c → isDigitC c = false ∧ c ≠ '!') :
    ∀ c, (renderRelTail xs ++ T).head? = some c → isDigitC c = false ∧ c ≠ '!' := by
  cases xs with
  | nil =>
    intro c hc
    rw [show renderRelTail [] = [] from rfl, List.nil_append] at hc
    exact hT c hc
  | cons y ys =>
    intro c hc
    rw [show renderRelTail (y :: ys) = '.' :: (natToChars y ++ renderRelTail ys) from by
      rw [renderRelTail]; simp] at hc
    simp only [List.cons_append, List.head?_cons, Option.some.injEq] at hc
    subst hc
    exact ⟨by decide, by decide⟩

/-! ### The six phases on a canonical rendering -/

theorem stage_local (v : PVersion) (h : pvWF v) :
    tryLocal (localPart v) = some (v.loc, []) := by
  cases hq : v.loc with
  | none =>
    rw [show localPart v = [] from by simp [localPart, hq], tryLocal_nil]
  | some segs =>
    obtain ⟨hne, hwf⟩ := h.2 segs hq
    rw [show localPart v = '+' :: renderLocalSegs segs from by simp [localPart, hq]]
    rw [tryLocal_render segs hne hwf]

theorem stage_dev (v : PVersion) (_h : pvWF v) :
    tryDev (devPart v ++ localPart v) = (v.dev, localPart v) := by
  cases hd : v.dev with
  | some n =>
    rw [show devPart v = '.' :: 'd' :: 'e' :: 'v' :: natToChars n from by
      simp [devPart, hd]]
    rw [show ('.' :: 'd' :: 'e' :: 'v' :: natToChars n) ++ localPart v
        = '.' :: 'd' :: 'e' :: 'v' :: (natToChars n ++ localPart v) from by simp]
    exact tryDev_render n (localPart v) (localPart_head_nd v)
  | none =>
    rw [show devPart v = [] from by simp [devPart, hd], List.nil_append]
    apply tryDev_none
    cases hl : v.loc with
    | none =>
      rw [show localPart v = [] from by simp [localPart, hl]]
      exact matchDev_none_nil
    | some segs =>
      rw [show localPart v = '+' :: renderLocalSegs segs from by simp [localPart, hl]]
      rw [dropOneSep_id '+' _ (by decide)]
      exact matchDev_none_plus _

theorem stage_post (v : PVersion) (_h : pvWF v) :
    tryPost (postPart v ++ (devPart v ++ localPart v)) = (v.post, devPart v ++ localPart v) := by
  cases hp : v.post with
  | some n =>
    rw [show postPart v = '.' :: 'p' :: 'o' :: 's' :: 't' :: natToChars n from by
      simp [postPart, hp]]
    rw [show ('.' :: 'p' :: 'o' :: 's' :: 't' :: natToChars n) ++ (devPart v ++ localPart v)
        = '.' :: 'p' :: 'o' :: 's' :: 't' :: (natToChars n ++ (devPart v ++ localPart v)) from by simp]
    exact tryPost_render n (devPart v ++ localPart v) (afterPost_head_nd v)
  | none =>
    rw [show postPart v = [] from by simp [postPart, hp], List.nil_append]
    have h0 : ∀ r, devPart v ++ localPart v ≠ '-' :: r := by
      intro r hr
      rcases afterPost_head v '-' (by rw [hr]; rfl) with h1 | h1 <;>
        exact absurd h1 (by decide)
    apply tryPost_not_dash _ h0
    cases hdv : v.dev with
    | some m =>
      rw [show devPart v = '.' :: 'd' :: 'e' :: 'v' :: natToChars m from by
        simp [devPart, hdv]]
      rw [show ('.' :: 'd' :: 'e' :: 'v' :: natToChars m) ++ localPart v
          = '.' :: ('d' :: 'e' :: 'v' :: (natToChars m ++ localPart v)) from by simp]
      rw [dropOneSep_sep '.' _ (by decide)]
      exact matchPost_none_dev _
    | none =>
      rw [show devPart v = [] from by simp [devPart, hdv], List.nil_append]
      cases hl : v.loc with
      | none =>
        rw [show localPart v = [] from by simp [localPart, hl]]
        exact matchPost_none_nil
      | some segs =>
        rw [show localPart v = '+' :: renderLocalSegs segs from by simp [localPart, hl]]
        rw [dropOneSep_id '+' _ (by decide)]
        exact matchPost_none_plus _

theorem stage_pre (v : PVersion) (_h : pvWF v) :
    tryPre (prePart v ++ (postPart v ++ (devPart v ++ localPart v))) =
      (v.pre, postPart v ++ (devPart v ++ localPart v)) := by
  cases hp : v.pre with
  | some tn =>
    obtain ⟨t, n⟩ := tn
    rw [show prePart v = preTagChars t ++ natToChars n from by simp [prePart, hp]]
    exact tryPre_render t n _ (afterPre_head_nd v)
  | none =>
    rw [show prePart v = [] from by simp [prePart, hp], List.nil_append]
    apply tryPre_none
    cases hpo : v.post with
    | some m =>
      rw [show postPart v = '.' :: 'p' :: 'o' :: 's' :: 't' :: natToChars m from by
        simp [postPart, hpo]]
      rw [show ('.' :: 'p' :: 'o' :: 's' :: 't' :: natToChars m) ++ (devPart v ++ localPart v)
          = '.' :: ('p' :: 'o' :: 's' :: 't' :: (natToChars m ++ (devPart v ++ localPart v))) from by simp]
      rw [dropOneSep_sep '.' _ (by decide)]
      exact matchPre_none_post _
    | none =>
      rw [show postPart v = [] from by simp [postPart, hpo], List.nil_append]
      cases hdv : v.dev with
      | some m =>
        rw [show devPart v = '.' :: 'd' :: 'e' :: 'v' :: natToChars m from by
          simp [devPart, hdv]]
        rw [show ('.' :: 'd' :: 'e' :: 'v' :: natToChars m) ++ localPart v
            = '.' :: ('d' :: 'e' :: 'v' :: (natToChars m ++ localPart v)) from by simp]
        rw [dropOneSep_sep '.' _ (by decide)]
        exact matchPre_none_dev _
      | none =>
        rw [show devPart v = [] from by simp [devPart, hdv], List.nil_append]
        cases hl : v.loc with
        | none =>
          rw [show localPart v = [] from by simp [localPart, hl]]
          exact matchPre_none_nil
        | some segs =>
          rw [show localPart v = '+' :: renderLocalSegs segs from by simp [localPart, hl]]
          rw [dropOneSep_id '+' _ (by decide)]
          exact matchPre_none_plus _

theorem stage_release (v : PVersion) (h : pvWF v) :
    parseRelease (renderRelease v.release ++ (prePart v ++ (postPart v ++ (devPart v ++ localPart v)))) =
      some (v.release, prePart v ++ (postPart v ++ (devPart v ++ localPart v))) :=
  parseRelease_render v.release h.1 _ (fun c hc => (afterRel_head v c hc).1) (afterRel_dot v)

theorem renderVersionChars_assoc (v : PVersion) :
    renderVersionChars v =
      epochPart v ++ (renderRelease v.release ++ (prePart v ++ (postPart v ++ (devPart v ++ localPart v)))) := by
  rw [renderVersionChars]
  simp [List.append_assoc]

theorem stage_epoch (v : PVersion) (h : pvWF v) :
    parseEpoch (renderVersionChars v) =
      (v.epoch, renderRelease v.release ++ (prePart v ++ (postPart v ++ (devPart v ++ localPart v)))) := by
  rw [renderVersionChars_assoc]
  by_cases he : v.epoch = 0
  · rw [epochPart, if_pos he, List.nil_append]
    obtain ⟨x, xs, hx⟩ : ∃ x xs, v.release = x :: xs := by
      cases hr : v.release with
      | nil => exact absurd hr h.1
      | cons x xs => exact ⟨x, xs, rfl⟩
    rw [hx, renderRelease_cons, List.append_assoc]
    rw [parseEpoch_absent (natToChars x) _ (natToChars_digits x)
      (relTail_head xs _ (afterRel_head v))]
    rw [he]
  · rw [epochPart, if_neg he, List.append_assoc, List.singleton_append]
    exact parseEpoch_present v.epoch _

/-- Parsing a canonical rendering recovers the parsed version exactly. -/
theorem render_roundtrip (v : PVersion) (h : pvWF v) :
    pversionParseChars (renderVersionChars v) = some v := by
  rw [pversionParseChars]
  simp only []
  rw [clean_render v h, stage_epoch v h]
  simp only []
  rw [stage_release v h]
  simp only []
  rw [stage_pre v h]
  simp only []
  rw [stage_post v h]
  simp only []
  rw [stage_dev v h]
  simp only []
  rw [stage_local v h]
  simp only []
  rw [if_pos trivial]

/-! ### Well-formedness of parser outputs -/

theorem relLoop_acc (n : Nat) : ∀ (s : List Char), s.length ≤ n →
    ∀ (acc : List Nat) (cur : Nat),
    ∃ q, q ≠ [] ∧ (relLoop acc cur s).1 = acc ++ q := by
  induction n with
  | zero =>
    intro s hs acc cur
    have hs0 : s = [] := List.eq_nil_of_length_eq_zero (Nat.le_zero.mp hs)
    subst hs0
    exact ⟨[cur], by simp, by simp [relLoop]⟩
  | succ n ih =>
    intro s hs acc cur
    match s with
    | [] => exact ⟨[cur], by simp, by simp [relLoop]⟩
    | [c] =>
      rw [relLoop]
      by_cases hd : isDigitC c
      · rw [if_pos hd]
        exact ⟨[cur * 10 + (c.toNat - 48)], by simp, rfl⟩
      · rw [if_neg hd]
        exact ⟨[cur], by simp, rfl⟩
    | c :: d :: r =>
      rw [relLoop]
      by_cases h1 : isDigitC c
      · rw [if_pos h1]
        exact ih (d :: r) (by simp at hs ⊢; omega) acc (cur * 10 + (c.toNat - 48))
      · rw [if_neg h1]
        by_cases h2 : (c = '.' && isDigitC d) = true
        · rw [if_pos h2]
          obtain ⟨q, hq, hacc⟩ := ih r (by simp at hs ⊢; omega) (acc ++ [cur]) (d.toNat - 48)
          exact ⟨cur :: q, by simp, by rw [hacc]; simp⟩
        · rw [if_neg h2]
          exact ⟨[cur], by simp, rfl⟩

theorem parseRelease_ne (s : List Char) (rel : List Nat) (r2 : List Char)
    (h : parseRelease s = some (rel, r2)) : rel ≠ [] := by
  rw [parseRelease.eq_def] at h
  split at h
  · rename_i c r
    split at h
    · injection h with h1
      obtain ⟨q, hq, hacc⟩ := relLoop_acc r.length r (le_refl _) [] (c.toNat - 48)
      have : rel = (relLoop [] (c.toNat - 48) r).1 := by rw [h1]
      rw [this, hacc, List.nil_append]
      exact hq
    · exact absurd h (by simp)
  · exact absurd h (by simp)

theorem mkSeg_wf (cur : List Char) (hne : cur ≠ []) (hall : ∀ ch ∈ cur, isLocAlC ch = true) :
    lsegWF (mkSeg cur) := by
  rw [mkSeg]
  by_cases hd : cur.all isDigitC
  · rw [if_pos hd]
    trivial
  · rw [if_neg hd]
    refine ⟨hne, hall, ?_⟩
    rw [List.all_eq_true] at hd
    push_neg at hd
    obtain ⟨c, hc, hcd⟩ := hd
    exact ⟨c, hc, by simpa using hcd⟩

theorem locLoop_wf (n : Nat) : ∀ (s : List Char), s.length ≤ n →
    ∀ (acc : List LSeg) (cur : List Char),
    (∀ sg ∈ acc, lsegWF sg) → cur ≠ [] → (∀ ch ∈ cur, isLocAlC ch = true) →
    (locLoop acc cur s).1 ≠ [] ∧ ∀ sg ∈ (locLoop acc cur s).1, lsegWF sg := by
  induction n with
  | zero =>
    intro s hs acc cur hacc hne hall
    have hs0 : s = [] := List.eq_nil_of_length_eq_zero (Nat.le_zero.mp hs)
    subst hs0
    refine ⟨by simp [locLoop], ?_⟩
    intro sg hsg
    rw [show (locLoop acc cur []).1 = acc ++ [mkSeg cur] from rfl] at hsg
    rcases List.mem_append.mp hsg with h1 | h1
    · exact hacc sg h1
    · rcases List.mem_singleton.mp h1 with rfl
      exact mkSeg_wf cur hne hall
  | succ n ih =>
    intro s hs acc cur hacc hne hall
    match s with
    | [] =>
      refine ⟨by simp [locLoop], ?_⟩
      intro sg hsg
      rw [show (locLoop acc cur []).1 = acc ++ [mkSeg cur] from rfl] at hsg
      rcases List.mem_append.mp hsg with h1 | h1
      · exact hacc sg h1
      · rcases List.mem_singleton.mp h1 with rfl
        exact mkSeg_wf cur hne hall
    | [c] =>
      rw [locLoop]
      by_cases hc : isLocAlC c
      · rw [if_pos hc]
        refine ⟨by simp, ?_⟩
        intro sg hsg
        rcases List.mem_append.mp hsg with h1 | h1
        · exact hacc sg h1
        · rcases List.mem_singleton.mp h1 with rfl
          refine mkSeg_wf _ (by simp) ?_
          intro ch hch
          rcases List.mem_append.mp hch with h2 | h2
          · exact hall ch h2
          · rcases List.mem_singleton.mp h2 with rfl
            exact hc
      · rw [if_neg hc]
        refine ⟨by simp, ?_⟩
        intro sg hsg
        rcases List.mem_append.mp hsg with h1 | h1
        · exact hacc sg h1
        · rcases List.mem_singleton.mp h1 with rfl
          exact mkSeg_wf cur hne hall
    | c :: d :: r =>
      rw [locLoop]
      by_cases h1 : isLocAlC c
      · rw [if_pos h1]
        refine ih (d :: r) (by simp at hs ⊢; omega) acc (cur ++ [c]) hacc (by simp) ?_
        intro ch hch
        rcases List.mem_append.mp hch with h2 | h2
        · exact hall ch h2
        · rcases List.mem_singleton.mp h2 with rfl
          exact h1
      · rw [if_neg h1]
        by_cases h2 : (isSepC c && isLocAlC d) = true
        · rw [if_pos h2]
          rw [Bool.and_eq_true] at h2
          refine ih r (by simp at hs ⊢; omega) (acc ++ [mkSeg cur]) [d] ?_ (by simp) ?_
          · intro sg hsg
            rcases List.mem_append.mp hsg with h3 | h3
            · exact hacc sg h3
            · rcases List.mem_singleton.mp h3 with rfl
              exact mkSeg_wf cur hne hall
          · intro ch hch
            rcases List.mem_singleton.mp hch with rfl
            exact h2.2
        · rw [if_neg h2]
          refine ⟨by simp, ?_⟩
          intro sg hsg
          rcases List.mem_append.mp hsg with h3 | h3
          · exact hacc sg h3
          · rcases List.mem_singleton.mp h3 with rfl
            exact mkSeg_wf cur hne hall

theorem tryLocal_wf (s : List Char) (lc : Option (List LSeg)) (r2 : List Char)
    (h : tryLocal s = some (lc, r2)) :
    ∀ segs, lc = some segs → segs ≠ [] ∧ ∀ sg ∈ segs, lsegWF sg := by
  intro segs hlc
  subst hlc
  rw [tryLocal.eq_def] at h
  split at h
  · rename_i c r
    split at h
    · rename_i hc
      have hll := locLoop_wf r.length r (le_refl _) [] [c] (by simp) (by simp)
        (fun ch hch => by rcases List.mem_singleton.mp hch with rfl; exact hc)
      rw [show (match locLoop [] [c] r with
          | (segs2, r3) => some (some segs2, r3) : Option (Option (List LSeg) × List Char))
          = some (some (locLoop [] [c] r).1, (locLoop [] [c] r).2) from rfl] at h
      injection h with h1
      injection h1 with h2 h3
      injection h2 with h4
      rw [← h4]
      exact hll
    · exact absurd h (by simp)
  · exact absurd h (by simp)
  · rename_i hne
    injection h with h1
    injection h1 with h2 h3
    exact absurd h2.symm (by simp)

theorem parse_wf (s : List Char) (v : PVersion) (h : pversionParseChars s = some v) :
    pvWF v := by
  rw [pversionParseChars] at h
  split at h
  split at h
  · exact absurd h (by simp)
  · rename_i rel s2 hrel
    split at h
    split at h
    split at h
    split at h
    · exact absurd h (by simp)
    · rename_i lc s6 hloc
      split at h
      · rename_i hs6
        injection h with hv
        constructor
        · rw [← hv]
          exact parseRelease_ne _ rel s2 hrel
        · rw [← hv]
          exact tryLocal_wf _ lc s6 hloc
      · exact absurd h (by simp)

/-! ### The marker scanner on a structured line -/

theorem word_not_ws (c : Char) (h : isWordC c = true) : isWsC c = false := by
  rw [isWordC, isDigitC] at h
  simp only [Bool.or_eq_true, Bool.and_eq_true, decide_eq_true_eq] at h
  rw [isWsC]
  simp only [Bool.or_eq_false_iff, decide_eq_false_iff_not]
  omega

theorem val_not_ws (c : Char) (h : isValC c = true) : isWsC c = false := by
  rw [isValC] at h
  simp only [Bool.and_eq_true, Bool.not_eq_true'] at h
  exact h.1

theorem takeWhile_exact (p : Char → Bool) (ds rest : List Char)
    (hd : ∀ c ∈ ds, p c = true) (hr : ∀ c, rest.head? = some c → p c = false) :
    (ds ++ rest).takeWhile p = ds := by
  have h := spanP_exact p ds rest hd hr
  rw [spanP, Prod.mk.injEq] at h
  exact h.1

theorem dropWhile_exact (p : Char → Bool) (ds rest : List Char)
    (hd : ∀ c ∈ ds, p c = true) (hr : ∀ c, rest.head? = some c → p c = false) :
    (ds ++ rest).dropWhile p = rest := by
  have h := spanP_exact p ds rest hd hr
  rw [spanP, Prod.mk.injEq] at h
  exact h.2

theorem scanLine_structured (ind fld ws2 val restL : List Char)
    (hind : ∀ c ∈ ind, isWsC c = true)
    (hfld_ne : fld ≠ []) (hfld : ∀ c ∈ fld, isWordC c = true)
    (hws2 : ∀ c ∈ ws2, isWsC c = true)
    (hval_ne : val ≠ []) (hval : ∀ c ∈ val, isValC c = true)
    (hrest : ∀ c, restL.head? = some c → isWsC c = true ∨ c = '#') :
    scanLine (ind ++ (fld ++ (':' :: (ws2 ++ (val ++ restL))))) = some (fld, val) := by
  have hfhead : ∀ c, (fld ++ (':' :: (ws2 ++ (val ++ restL)))).head? = some c →
      isWsC c = false := by
    intro c hc
    cases fld with
    | nil => exact absurd rfl hfld_ne
    | cons f0 ftl =>
      simp only [List.cons_append, List.head?_cons, Option.some.injEq] at hc
      subst hc
      exact word_not_ws f0 (hfld f0 (by simp))
  have h0 : (ind ++ (fld ++ (':' :: (ws2 ++ (val ++ restL))))).dropWhile isWsC
      = fld ++ (':' :: (ws2 ++ (val ++ restL))) :=
    dropWhile_exact isWsC ind _ hind hfhead
  have h1 : (fld ++ (':' :: (ws2 ++ (val ++ restL)))).takeWhile isWordC = fld :=
    takeWhile_exact isWordC fld _ hfld (by
      intro c hc
      simp only [List.head?_cons, Option.some.injEq] at hc
      subst hc
      decide)
  have h2 : (fld ++ (':' :: (ws2 ++ (val ++ restL)))).dropWhile isWordC
      = ':' :: (ws2 ++ (val ++ restL)) :=
    dropWhile_exact isWordC fld _ hfld (by
      intro c hc
      simp only [List.head?_cons, Option.some.injEq] at hc
      subst hc
      decide)
  have hvhead : ∀ c, (val ++ restL).head? = some c → isWsC c = false := by
    intro c hc
    cases val with
    | nil => exact absurd rfl hval_ne
    | cons v0 vtl =>
      simp only [List.cons_append, List.head?_cons, Option.some.injEq] at hc
      subst hc
      exact val_not_ws v0 (hval v0 (by simp))
  have h3 : (ws2 ++ (val ++ restL)).dropWhile isWsC = val ++ restL :=
    dropWhile_exact isWsC ws2 _ hws2 hvhead
  have h4 : (val ++ restL).takeWhile isValC = val :=
    takeWhile_exact isValC val restL hval (by
      intro c hc
      rcases hrest c hc with hw | rfl
      · rw [isValC]
        simp [hw]
      · decide)
  rw [scanLine]
  simp only []
  rw [h0, h1, h2, if_neg hfld_ne]
  simp only []
  rw [h3, h4, if_neg hval_ne]

theorem lineMarker_structured (ind fld ws2 val restL : List Char)
    (hind : ∀ c ∈ ind, isWsC c = true)
    (hfld_ne : fld ≠ []) (hfld : ∀ c ∈ fld, isWordC c = true)
    (hws2 : ∀ c ∈ ws2, isWsC c = true)
    (hval_ne : val ≠ []) (hval : ∀ c ∈ val, isValC c = true)
    (hrest : ∀ c, restL.head? = some c → isWsC c = true ∨ c = '#')
    (hmark : markerPhrase <:+: restL) :
    lineMarker (ind ++ (fld ++ (':' :: (ws2 ++ (val ++ restL))))) = some (fld, val) := by
  have hinf : markerPhrase <:+: (ind ++ (fld ++ (':' :: (ws2 ++ (val ++ restL))))) := by
    obtain ⟨a, b, hab⟩ := hmark
    exact ⟨ind ++ (fld ++ (':' :: (ws2 ++ (val ++ a)))), b, by rw [← hab]; simp⟩
  rw [lineMarker, if_pos hinf]
  exact scanLine_structured ind fld ws2 val restL hind hfld_ne hfld hws2 hval_ne hval hrest

theorem findWatchdogAux_none (ls : List (List Char)) : ∀ i,
    (∀ x ∈ ls, lineMarker x = none) → findWatchdogAux i ls = [] := by
  induction ls with
  | nil => intro i _; rfl
  | cons x t ih =>
    intro i h
    simp only [findWatchdogAux]
    rw [h x (by simp)]
    exact ih (i + 1) (fun y hy => h y (by simp [hy]))

theorem findWatchdogAux_structured (pre : List (List Char)) :
    ∀ (i : Nat) (L : List Char) (post : List (List Char)) (f v : List Char),
    (∀ x ∈ pre, lineMarker x = none) → (∀ x ∈ post, lineMarker x = none) →
    lineMarker L = some (f, v) →
    findWatchdogAux i (pre ++ L :: post) = [(i + pre.length, f, v)] := by
  induction pre with
  | nil =>
    intro i L post f v _ hpost hL
    rw [List.nil_append]
    simp only [findWatchdogAux]
    rw [hL]
    simp only []
    rw [findWatchdogAux_none post (i + 1) hpost]
    simp
  | cons x pre2 ih =>
    intro i L post f v hpre hpost hL
    rw [List.cons_append]
    simp only [findWatchdogAux]
    rw [hpre x (by simp)]
    simp only []
    rw [ih (i + 1) L post f v (fun y hy => hpre y (by simp [hy])) hpost hL]
    simp
    omega

theorem getElem?_middle (pre : List (List Char)) (L : List Char) (post : List (List Char)) :
    (pre ++ L :: post)[pre.length]? = some L := by
  induction pre with
  | nil => simp
  | cons x t ih => simpa using ih

theorem set_middle (pre : List (List Char)) (L L2 : List Char) (post : List (List Char)) :
    (pre ++ L :: post).set pre.length L2 = pre ++ L2 :: post := by
  induction pre with
  | nil => rfl
  | cons x t ih =>
    rw [List.cons_append, List.length_cons, List.set_cons_succ, ih, List.cons_append]

/-! ### C9: idempotence of the update pipeline -/

/-- C9 counterexample: on the file `v2: 2 # watchdog this`, with latest
version `3.0.0`, the first run rewrites EVERY occurrence of the current
version `2` in the line — including the one inside the field name `v2` —
producing `v3.0.0: 3.0.0 # watchdog this`, whose field `v3` is no longer
followed by `:`.  The second run therefore finds no marker at all: it
yields NO decision for the marker (an empty status list), not the
"up-to-date" decision the claim requires. -/
theorem c9_counterexample :
    processFile true ["3.0.0"] ["v2: 2 # watchdog this\n".data] =
      ([UStatus.updated], ["v3.0.0: 3.0.0 # watchdog this\n".data]) ∧
    processFile true ["3.0.0"] ["v3.0.0: 3.0.0 # watchdog this\n".data] =
      (([] : List UStatus), ["v3.0.0: 3.0.0 # watchdog this\n".data]) ∧
    (∀ sts : List UStatus, sts ≠ [] →
      processFile true ["3.0.0"] ["v3.0.0: 3.0.0 # watchdog this\n".data] ≠
        (sts, ["v3.0.0: 3.0.0 # watchdog this\n".data])) := by
  refine ⟨by decide, by decide, ?_⟩
  intro sts hne h
  have h2 : processFile true ["3.0.0"] ["v3.0.0: 3.0.0 # watchdog this\n".data] =
      (([] : List UStatus), ["v3.0.0: 3.0.0 # watchdog this\n".data]) := by decide
  rw [h2] at h
  exact hne (Prod.mk.injEq _ _ _ _ ▸ h).1.symm

/-- C9 (amended): the update pipeline applied twice against the same
candidate list is idempotent PROVIDED the first rewrite leaves the marker
intact — in particular when the line consists of indentation, the field,
`:`, whitespace, the current version as the whole value token, and a tail
containing the marker phrase, and the current version occurs nowhere else
on the line.  Then the first run updates the value in place
(status `updated`), and the second run decides `alreadyLatest` for the
marker and writes nothing.  Without the unique-occurrence proviso the
first rewrite can destroy the marker (see the counterexample), because
`str.replace` rewrites every occurrence. -/
theorem c9_idempotent_when_value_unique
    (pre post : List (List Char)) (ind fld ws2 cur restL : List Char)
    (cands : List String) (l : String) (pl pc : PVersion)
    (hpre : ∀ x ∈ pre, lineMarker x = none)
    (hpost : ∀ x ∈ post, lineMarker x = none)
    (hind : ∀ c ∈ ind, isWsC c = true)
    (hfld_ne : fld ≠ []) (hfld : ∀ c ∈ fld, isWordC c = true)
    (hws2 : ∀ c ∈ ws2, isWsC c = true)
    (hcur_ne : cur ≠ []) (hcur : ∀ c ∈ cur, isValC c = true)
    (hrest : ∀ c, restL.head? = some c → isWsC c = true ∨ c = '#')
    (hmark : markerPhrase <:+: restL)
    (hl : getLatestVersion cands = some l) (hlne : l ≠ "")
    (hpl : pversionParse l = some pl)
    (hpc : pversionParse (String.mk cur) = some pc)
    (hgt : vcompare pl pc = .gt)
    (hlval_ne : l.data ≠ []) (hlval : ∀ c ∈ l.data, isValC c = true)
    (hocc1 : ∀ i < (ind ++ fld ++ ':' :: ws2).length,
      ¬ cur <+: ((ind ++ fld ++ ':' :: ws2) ++ cur ++ restL).drop i)
    (hocc2 : ∀ i < restL.length, ¬ cur <+: restL.drop i) :
    processFile true cands
        (pre ++ (ind ++ (fld ++ (':' :: (ws2 ++ (cur ++ restL))))) :: post) =
      ([UStatus.updated],
        pre ++ (ind ++ (fld ++ (':' :: (ws2 ++ (l.data ++ restL))))) :: post) ∧
    processFile true cands
        (pre ++ (ind ++ (fld ++ (':' :: (ws2 ++ (l.data ++ restL))))) :: post) =
      ([UStatus.alreadyLatest],
        pre ++ (ind ++ (fld ++ (':' :: (ws2 ++ (l.data ++ restL))))) :: post) := by
  have hmk : String.mk l.data = l := by cases l; rfl
  have hcl : cur ≠ l.data := by
    intro he
    rw [he, hmk] at hpc
    have h5 := hpc.symm.trans hpl
    injection h5 with h6
    rw [h6] at hgt
    rw [vcompare_refl] at hgt
    exact absurd hgt (by decide)
  have hlm1 : lineMarker (ind ++ (fld ++ (':' :: (ws2 ++ (cur ++ restL))))) =
      some (fld, cur) :=
    lineMarker_structured ind fld ws2 cur restL hind hfld_ne hfld hws2 hcur_ne hcur
      hrest hmark
  have hfw1 : findWatchdogLines
      (pre ++ (ind ++ (fld ++ (':' :: (ws2 ++ (cur ++ restL))))) :: post) =
      [(1 + pre.length, fld, cur)] :=
    findWatchdogAux_structured pre 1 _ post fld cur hpre hpost hlm1
  have hno : pyReplace restL cur l.data = restL :=
    pyReplace_no_occ cur l.data hcur_ne restL (by
      intro i hp
      by_cases hi : i < restL.length
      · exact hocc2 i hi hp
      · rw [List.drop_eq_nil_of_le (by omega)] at hp
        exact hcur_ne (List.prefix_nil.mp hp))
  have hrep : pyReplace (ind ++ (fld ++ (':' :: (ws2 ++ (cur ++ restL))))) cur l.data
      = ind ++ (fld ++ (':' :: (ws2 ++ (l.data ++ restL)))) := by
    have hsh : ind ++ (fld ++ (':' :: (ws2 ++ (cur ++ restL))))
        = (ind ++ fld ++ ':' :: ws2) ++ cur ++ restL := by simp
    rw [hsh, pyReplace_decomp cur l.data hcur_ne (ind ++ fld ++ ':' :: ws2) restL hocc1,
      hno]
    simp
  have hLne : ind ++ (fld ++ (':' :: (ws2 ++ (cur ++ restL))))
      ≠ ind ++ (fld ++ (':' :: (ws2 ++ (l.data ++ restL)))) := by
    intro he
    apply hcl
    have h1 := List.append_cancel_left he
    have h2 := List.append_cancel_left h1
    injection h2 with _ h3
    have h4 := List.append_cancel_left h3
    exact List.append_cancel_right h4
  have hlen : 1 + pre.length ≤
      (pre ++ (ind ++ (fld ++ (':' :: (ws2 ++ (cur ++ restL))))) :: post).length := by
    simp
    omega
  have hget : (pre ++ (ind ++ (fld ++ (':' :: (ws2 ++ (cur ++ restL))))) :: post)[
      1 + pre.length - 1]? = some (ind ++ (fld ++ (':' :: (ws2 ++ (cur ++ restL))))) := by
    rw [show 1 + pre.length - 1 = pre.length from by omega]
    exact getElem?_middle pre _ post
  have hupd : updateVersionInFile false
      (pre ++ (ind ++ (fld ++ (':' :: (ws2 ++ (cur ++ restL))))) :: post)
      ((1 + pre.length : Nat) : Int) cur l.data
      = (true, pre ++ (ind ++ (fld ++ (':' :: (ws2 ++ (l.data ++ restL))))) :: post) := by
    rw [updateVIF_in_range false _ (1 + pre.length) (by omega) hlen _ hget cur l.data]
    rw [hrep, if_neg hLne]
    rw [show 1 + pre.length - 1 = pre.length from by omega, set_middle]
    rfl
  have hrun1 : processMarkers true (some l) [(1 + pre.length, fld, cur)]
      (pre ++ (ind ++ (fld ++ (':' :: (ws2 ++ (cur ++ restL))))) :: post)
      = ([UStatus.updated],
        pre ++ (ind ++ (fld ++ (':' :: (ws2 ++ (l.data ++ restL))))) :: post) := by
    rw [processMarkers.eq_def]
    simp only []
    rw [if_neg hlne, hpl, hpc]
    simp only []
    rw [if_pos hgt]
    simp only [Bool.not_true]
    rw [hupd]
    rfl
  have hlm2 : lineMarker (ind ++ (fld ++ (':' :: (ws2 ++ (l.data ++ restL))))) =
      some (fld, l.data) :=
    lineMarker_structured ind fld ws2 l.data restL hind hfld_ne hfld hws2 hlval_ne
      hlval hrest hmark
  have hfw2 : findWatchdogLines
      (pre ++ (ind ++ (fld ++ (':' :: (ws2 ++ (l.data ++ restL))))) :: post) =
      [(1 + pre.length, fld, l.data)] :=
    findWatchdogAux_structured pre 1 _ post fld l.data hpre hpost hlm2
  have hrun2 : processMarkers true (some l) [(1 + pre.length, fld, l.data)]
      (pre ++ (ind ++ (fld ++ (':' :: (ws2 ++ (l.data ++ restL))))) :: post)
      = ([UStatus.alreadyLatest],
        pre ++ (ind ++ (fld ++ (':' :: (ws2 ++ (l.data ++ restL))))) :: post) := by
    rw [processMarkers.eq_def]
    simp only []
    rw [if_neg hlne, hmk, hpl]
    simp only []
    rw [if_neg (by rw [vcompare_refl]; decide)]
    rfl
  refine ⟨?_, ?_⟩
  · rw [processFile, hl, hfw1]
    exact hrun1
  · rw [processFile, hl, hfw2]
    exact hrun2

theorem c9_witness :
    processFile true ["1.1.0"] ["img: 1.0.0 # watchdog this\n".data] =
      ([UStatus.updated], ["img: 1.1.0 # watchdog this\n".data]) ∧
    processFile true ["1.1.0"] ["img: 1.1.0 # watchdog this\n".data] =
      ([UStatus.alreadyLatest], ["img: 1.1.0 # watchdog this\n".data]) := by
  have h := c9_idempotent_when_value_unique [] [] [] "img".data " ".data
    "1.0.0".data " # watchdog this\n".data ["1.1.0"] "1.1.0"
    ⟨0, [1, 1, 0], none, none, none, none⟩ ⟨0, [1, 0, 0], none, none, none, none⟩
    (by decide) (by decide) (by decide) (by decide) (by decide) (by decide)
    (by decide) (by decide) (by decide) (by decide) (by decide) (by decide)
    (by decide) (by decide) (by decide) (by decide) (by decide) (by decide)
    (by decide)
  exact ⟨h.1, h.2⟩

/-! ### C10: the selected latest is a canonical rendering -/

/-- C10: for a non-empty candidate list in which every candidate parses,
`get_latest_version` returns the canonical rendering `str(max(parsed))` of
a maximal parsed candidate; re-parsing the returned string yields exactly
that maximal parsed version; and the returned string may differ textually
from every input candidate — the input list `["v1.2.3"]` produces the
output `"1.2.3"`, which is not among the inputs. -/
theorem c10_canonical_rendering (versions : List String) (v0 : String)
    (rest : List String) (parsed : List PVersion) (m : PVersion)
    (hvs : versions = v0 :: rest)
    (hp : parseAll versions = some parsed)
    (hm : pyMax parsed = some m) :
    getLatestVersion versions = some (renderVersion m) ∧
    pversionParse (renderVersion m) = some m ∧
    m ∈ parsed ∧ (∀ p ∈ parsed, vcompare p m ≠ .gt) ∧
    (getLatestVersion ["v1.2.3"] = some "1.2.3" ∧ "1.2.3" ∉ ["v1.2.3"]) := by
  refine ⟨?_, ?_, pyMax_mem hm, pyMax_not_gt hm, by decide⟩
  · subst hvs
    simp only [getLatestVersion]
    rw [hp]
    simp only []
    rw [hm]
    rfl
  · obtain ⟨str0, hstr0, hps⟩ := parseAll_sound versions parsed hp m (pyMax_mem hm)
    have hwf := parse_wf str0.data m hps
    exact render_roundtrip m hwf

theorem c10_witness :
    getLatestVersion ["v1.2.3"] =
      some (renderVersion ⟨0, [1, 2, 3], none, none, none, none⟩) ∧
    pversionParse (renderVersion ⟨0, [1, 2, 3], none, none, none, none⟩) =
      some ⟨0, [1, 2, 3], none, none, none, none⟩ := by
  have h := c10_canonical_rendering ["v1.2.3"] "v1.2.3" []
    [⟨0, [1, 2, 3], none, none, none, none⟩] ⟨0, [1, 2, 3], none, none, none, none⟩
    rfl (by decide) (by decide)
  exact ⟨h.1, h.2.1⟩

end Watchdog
